import Mathlib

/-!
Shallow embedding of the workflow engine (`src/__init__.py`) and proofs of
the specification's claims about it.

Modelling conventions:
* Python dicts that preserve insertion order are modelled as association
  lists.  `Workflow.steps` (a dict keyed by `step_id`) is a
  `List WorkflowStep`, since the dict key always equals the value's
  `step_id` field; updating an existing key replaces the entry in place,
  adding a new key appends, exactly like a Python dict.
* The executor table maps an action name to an optional executor; an
  executor takes the step and either returns a result value or signals a
  failure with a message (`Except String String` — Python's
  `await executor(step)` returning a value, or raising an exception `e`
  recorded as `str(e)`).
* `run`'s `while` loop is modelled with explicit fuel; `run` hands the
  loop `steps.length + 1` units, and a separate theorem shows this always
  suffices (the loop either grows the completed set or stops), so an
  exhausted-fuel result (`none`) never occurs.
* The execution loop additionally records ghost instrumentation that the
  Python code makes observable through executor calls and shared state:
  a trace of dispatch/failure events and the final `completed` set.
  These extra outputs do not influence the computation.
-/

namespace WorkflowEngine

/-- Status enumeration, from `class WorkflowStatus(Enum)`. -/
inductive WorkflowStatus where
  | pending
  | running
  | completed
  | failed
  | cancelled
deriving DecidableEq, Repr

/-- The `.value` string of each enum member. -/
def WorkflowStatus.value : WorkflowStatus → String
  | .pending => "pending"
  | .running => "running"
  | .completed => "completed"
  | .failed => "failed"
  | .cancelled => "cancelled"

/-- A workflow step, from `@dataclass class WorkflowStep`.  The opaque
`result: Any` is modelled as an optional string value. -/
structure WorkflowStep where
  step_id : String
  name : String
  action : String
  agent_id : Option String := none
  dependencies : List String := []
  status : WorkflowStatus := .pending
  result : Option String := none
  error : Option String := none
deriving DecidableEq, Repr

/-- A workflow, from `@dataclass class Workflow`.  The steps dict is an
insertion-ordered list whose entries are keyed by their `step_id`; the
`created_at` timestamp is irrelevant to the claims and kept as a plain
number. -/
structure Workflow where
  workflow_id : String
  name : String
  steps : List WorkflowStep := []
  status : WorkflowStatus := .pending
  created_at : Nat := 0
deriving DecidableEq, Repr

/-- An executor: called with the step, it returns a result value or
signals a failure with a description. -/
abbrev Executor := WorkflowStep → Except String String

/-- The engine, from `class WorkflowEngine.__init__`: a workflow table and
an executor registry. -/
structure Engine where
  workflows : List (String × Workflow)
  executors : String → Option Executor

/-- `self.workflows.get(k)` on the insertion-ordered dict. -/
def wfGet (ws : List (String × Workflow)) (k : String) : Option Workflow :=
  (ws.find? (fun p => p.1 = k)).map (fun p => p.2)

/-- `self.workflows[k] = v`: replace in place if the key exists, else
append (Python dict assignment keeps the original key position). -/
def wfSet (ws : List (String × Workflow)) (k : String) (v : Workflow) :
    List (String × Workflow) :=
  if ws.any (fun p => p.1 = k) then
    ws.map (fun p => if p.1 = k then (k, v) else p)
  else
    ws ++ [(k, v)]

/-- `wf.steps[step_id] = step` on the step dict (keyed by `step_id`). -/
def stepsSet (steps : List WorkflowStep) (s : WorkflowStep) :
    List WorkflowStep :=
  if steps.any (fun t => t.step_id = s.step_id) then
    steps.map (fun t => if t.step_id = s.step_id then s else t)
  else
    steps ++ [s]

/-- Mutation of the step object stored under `sid`: every entry keyed by
`sid` is updated by `f` (the dict holds at most one). -/
def updStep (steps : List WorkflowStep) (sid : String)
    (f : WorkflowStep → WorkflowStep) : List WorkflowStep :=
  steps.map (fun t => if t.step_id = sid then f t else t)

/-- `WorkflowEngine.create_workflow`.  The fresh `uuid4` identifier is
nondeterministic in Python and is modelled as a caller-supplied id. -/
def create_workflow (eng : Engine) (fresh_id : String) (name : String) :
    Workflow × Engine :=
  let wf : Workflow := { workflow_id := fresh_id, name := name }
  (wf, { eng with workflows := wfSet eng.workflows fresh_id wf })

/-- `WorkflowEngine.add_step`.  Raising `ValueError(...)` is modelled as
returning `Except.error` with the same message; on success the created
step and the updated engine are returned. -/
def add_step (eng : Engine) (workflow_id step_id name action : String)
    (dependencies : List String) : Except String (WorkflowStep × Engine) :=
  match wfGet eng.workflows workflow_id with
  | none => Except.error ("Workflow " ++ workflow_id ++ " not found")
  | some wf =>
    let step : WorkflowStep :=
      { step_id := step_id, name := name, action := action,
        dependencies := dependencies }
    let wf' := { wf with steps := stepsSet wf.steps step }
    Except.ok (step, { eng with workflows := wfSet eng.workflows workflow_id wf' })

/-- `WorkflowEngine.register_executor`: overwrite-in-place registration. -/
def register_executor (eng : Engine) (action : String) (f : Executor) :
    Engine :=
  { eng with executors := fun a => if a = action then some f else eng.executors a }

/-- One iteration of the frontier computation: the body of
`for step_id, step in wf.steps.items():` — a step is collected iff it is
not already completed, its status is none of RUNNING/COMPLETED/FAILED,
and all its dependencies are in `completed`. -/
def isReadyStep (completedSet : List String) (s : WorkflowStep) : Bool :=
  !(completedSet.contains s.step_id) &&
  !(s.status = WorkflowStatus.running || s.status = WorkflowStatus.completed ||
    s.status = WorkflowStatus.failed) &&
  s.dependencies.all (fun d => completedSet.contains d)

/-- The `ready` list of one round, in step-dict insertion order. -/
def readySteps (steps : List WorkflowStep) (completedSet : List String) :
    List WorkflowStep :=
  steps.filter (isReadyStep completedSet)

/-- `completed.add(x)` on the set of completed step ids, modelled as a
duplicate-free list. -/
def setAdd (completedSet : List String) (x : String) : List String :=
  if completedSet.contains x then completedSet else completedSet ++ [x]

/-- Ghost instrumentation: observable actions of the execution loop.
`dispatched s stAt` records that step `s` was transitioned to RUNNING and
handed to executor lookup while the step table was `stAt`; `execFailed`
records an executor raising, with the recorded message. -/
inductive Event where
  | dispatched (step : WorkflowStep) (stepsAt : List WorkflowStep)
  | execFailed (step_id : String) (msg : String)
deriving DecidableEq, Repr

/-- Is the event a dispatch event? -/
def Event.isDispatchEvent : Event → Bool
  | .dispatched _ _ => true
  | .execFailed _ _ => false

/-- The state carried by the scheduling loop: the step table, the
`completed` set, the `failed` flag, and the ghost event trace. -/
structure RoundOut where
  steps : List WorkflowStep
  completedSet : List String
  failed : Bool
  trace : List Event
deriving DecidableEq, Repr

/-- The `for step in ready:` loop of `WorkflowEngine.run`: dispatch the
ready steps of the current frontier in order.  On an executor failure the
loop breaks at once (the failing step is not added to `completed`, the
remaining frontier is left untouched, and `failed` is set). -/
def processReady (execs : String → Option Executor) :
    List WorkflowStep → List WorkflowStep → List String → List Event → RoundOut
  | [], steps, completedSet, trace => ⟨steps, completedSet, false, trace⟩
  | s :: rest, steps, completedSet, trace =>
    let trace1 := trace ++ [Event.dispatched s steps]
    let steps1 := updStep steps s.step_id
      (fun t => { t with status := WorkflowStatus.running })
    match execs s.action with
    | some f =>
      match f { s with status := WorkflowStatus.running } with
      | Except.ok v =>
        let steps2 := updStep steps1 s.step_id
          (fun t => { t with result := some v, status := WorkflowStatus.completed })
        processReady execs rest steps2 (setAdd completedSet s.step_id) trace1
      | Except.error e =>
        let steps2 := updStep steps1 s.step_id
          (fun t => { t with status := WorkflowStatus.failed, error := some e })
        ⟨steps2, completedSet, true, trace1 ++ [Event.execFailed s.step_id e]⟩
    | none =>
      let steps2 := updStep steps1 s.step_id
        (fun t => { t with status := WorkflowStatus.completed })
      processReady execs rest steps2 (setAdd completedSet s.step_id) trace1

/-- The `while len(completed) < len(wf.steps) and not failed:` loop of
`WorkflowEngine.run`, with explicit fuel.  The `failed` flag is false on
entry of every iteration (the loop is never re-entered once it is set),
so it is not a parameter.  In the empty-frontier branch the code sets
`wf.status = FAILED` and `failed = True` and breaks; the status write is
subsumed by the final status assignment in `run`, which yields FAILED
exactly when `failed` is set. -/
def runLoop (execs : String → Option Executor) :
    Nat → List WorkflowStep → List String → List Event → Option RoundOut
  | 0, _, _, _ => none
  | fuel + 1, steps, completedSet, trace =>
    if completedSet.length < steps.length then
      let ready := readySteps steps completedSet
      if ready.isEmpty then
        if completedSet.length < steps.length then
          some ⟨steps, completedSet, true, trace⟩
        else
          some ⟨steps, completedSet, false, trace⟩
      else
        let out := processReady execs ready steps completedSet trace
        if out.failed then some out
        else runLoop execs fuel out.steps out.completedSet out.trace
    else
      some ⟨steps, completedSet, false, trace⟩

/-- The returned summary dict
`{"workflow_id": ..., "status": ..., "steps": {...}}`. -/
structure RunSummary where
  workflow_id : String
  status : String
  steps : List (String × String)
deriving DecidableEq, Repr

/-- `run`'s return value: either the `{"error": "Workflow not found"}`
dict or the summary dict. -/
inductive RunResult where
  | err (msg : String)
  | ok (summary : RunSummary)
deriving DecidableEq, Repr

/-- Everything observable about one `run` invocation: its return value,
the engine state afterwards, and the ghost trace and completed set. -/
structure RunOutcome where
  result : RunResult
  engine : Engine
  trace : List Event
  completedSet : List String

/-- `WorkflowEngine.run`.  `none` would mean the fuel ran out, which is
proved impossible.  The interim `wf.status = RUNNING` write is never
observable in the sequential model, since the final status assignment
`COMPLETED if not failed else FAILED` always follows before `run`
returns. -/
def run (eng : Engine) (workflow_id : String) : Option RunOutcome :=
  match wfGet eng.workflows workflow_id with
  | none => some ⟨RunResult.err "Workflow not found", eng, [], []⟩
  | some wf =>
    match runLoop eng.executors (wf.steps.length + 1) wf.steps [] [] with
    | none => none
    | some out =>
      let finalStatus :=
        if out.failed then WorkflowStatus.failed else WorkflowStatus.completed
      let wf' := { wf with steps := out.steps, status := finalStatus }
      let summary : RunSummary :=
        { workflow_id := workflow_id, status := finalStatus.value,
          steps := out.steps.map (fun s => (s.step_id, s.status.value)) }
      some ⟨RunResult.ok summary,
        { eng with workflows := wfSet eng.workflows workflow_id wf' },
        out.trace, out.completedSet⟩

/-- `WorkflowEngine.get_status`. -/
def get_status (eng : Engine) (workflow_id : String) :
    Option (String × String × String × Nat) :=
  match wfGet eng.workflows workflow_id with
  | none => none
  | some wf => some (wf.workflow_id, wf.name, wf.status.value, wf.steps.length)

/-- Every registered executor returns normally (never raises), on any
input.  This is the hypothesis "every invoked executor returns normally"
of the positive claims. -/
def ExecsOk (execs : String → Option Executor) : Prop :=
  ∀ a f, execs a = some f → ∀ s, ∃ v, f s = Except.ok v

/-- A ranking certificate that the dependency graph is acyclic and has no
dangling references: every dependency of a step names an existing step of
strictly smaller rank.  Such a ranking exists exactly for workflows whose
dependency graph is a DAG over existing steps. -/
def RankOk (rank : String → Nat) (steps : List WorkflowStep) : Prop :=
  ∀ s ∈ steps, ∀ d ∈ s.dependencies,
    d ∈ steps.map (fun t => t.step_id) ∧ rank d < rank s.step_id

/-- The step ids of the dispatch events of a trace, in dispatch order. -/
def dispatchIds (tr : List Event) : List String :=
  tr.filterMap (fun ev =>
    match ev with
    | Event.dispatched s _ => some s.step_id
    | Event.execFailed _ _ => none)

/-! Concrete fixtures used to witness and refute claims on explicit
inputs. -/

/-- A fresh step as the registration API builds it. -/
def sampleStep (sid act : String) (deps : List String) : WorkflowStep :=
  { step_id := sid, name := sid, action := act, dependencies := deps }

/-- A one-workflow table entry named `w`. -/
def sampleWf (steps : List WorkflowStep) : Workflow :=
  { workflow_id := "w", name := "w", steps := steps }

/-- An executor that always succeeds with result `r`. -/
def sampleOkExec : Executor := fun _ => Except.ok "r"

/-- An executor that always raises with message `boom`. -/
def sampleFailExec : Executor := fun _ => Except.error "boom"

/-- Two-step chain `a ← b`, both on an action with a succeeding executor. -/
def dagEng : Engine :=
  { workflows := [("w", sampleWf
      [sampleStep "a" "act" [], sampleStep "b" "act" ["a"]])],
    executors := fun a => if a = "act" then some sampleOkExec else none }

/-- Two steps depending on each other: a dependency cycle. -/
def cycleEng : Engine :=
  { workflows := [("w", sampleWf
      [sampleStep "a" "act" ["b"], sampleStep "b" "act" ["a"]])],
    executors := fun _ => none }

/-- Same-frontier fail-fast scenario: `a` succeeds, `b` raises, `c` would
succeed but sits after `b` in insertion order. -/
def failEng : Engine :=
  { workflows := [("w", sampleWf
      [sampleStep "a" "ok" [], sampleStep "b" "bad" [], sampleStep "c" "ok" []])],
    executors := fun a => if a = "ok" then some sampleOkExec
      else if a = "bad" then some sampleFailExec else none }

/-- A no-executor action step with a dependent step. -/
def noexecEng : Engine :=
  { workflows := [("w", sampleWf
      [sampleStep "a" "nope" [], sampleStep "b" "nope" ["a"]])],
    executors := fun _ => none }

/-- A non-empty workflow whose steps are all already terminal. -/
def termEng : Engine :=
  { workflows := [("w", sampleWf
      [{ sampleStep "a" "x" [] with status := WorkflowStatus.completed },
       { sampleStep "b" "x" [] with status := WorkflowStatus.completed }])],
    executors := fun _ => none }

/-- A workflow that already contains a step `a`, for the duplicate
`add_step` scenario. -/
def dupEng : Engine :=
  { workflows := [("w", sampleWf [sampleStep "a" "x" []])],
    executors := fun _ => none }

/-! Basic lemmas about the dictionary operations. -/

theorem wfSet_cons_ne {q : String × Workflow} {k : String} {v : Workflow}
    (qs : List (String × Workflow)) (hq : q.1 ≠ k) :
    wfSet (q :: qs) k v = q :: wfSet qs k v := by
  unfold wfSet
  by_cases h : qs.any (fun p => p.1 = k) <;> simp [List.any_cons, hq, h]

theorem wfGet_wfSet (k : String) (v : Workflow) :
    ∀ ws, wfGet (wfSet ws k v) k = some v := by
  intro ws
  induction ws with
  | nil => simp [wfGet, wfSet, List.find?]
  | cons q qs ih =>
    by_cases hq : q.1 = k
    · have hany : (q :: qs).any (fun p => p.1 = k) = true := by
        simp [List.any_cons, hq]
      unfold wfSet
      rw [if_pos hany]
      simp only [List.map_cons, if_pos hq]
      unfold wfGet
      rw [List.find?_cons_of_pos]
      · simp
      · simp
    · rw [wfSet_cons_ne qs hq]
      unfold wfGet
      rw [List.find?_cons_of_neg]
      · simpa [wfGet] using ih
      · simp [hq]

theorem updStep_map_stepId (steps : List WorkflowStep) (sid : String)
    (f : WorkflowStep → WorkflowStep) (hid : ∀ t, (f t).step_id = t.step_id) :
    (updStep steps sid f).map (fun t => t.step_id) =
      steps.map (fun t => t.step_id) := by
  unfold updStep
  rw [List.map_map]
  apply List.map_congr_left
  intro t _
  by_cases h : t.step_id = sid <;> simp [h, hid]

theorem updStep_map_deps (steps : List WorkflowStep) (sid : String)
    (f : WorkflowStep → WorkflowStep)
    (hdep : ∀ t, (f t).dependencies = t.dependencies) :
    (updStep steps sid f).map (fun t => t.dependencies) =
      steps.map (fun t => t.dependencies) := by
  unfold updStep
  rw [List.map_map]
  apply List.map_congr_left
  intro t _
  by_cases h : t.step_id = sid <;> simp [h, hdep]

theorem updStep_mem_of_ne {steps : List WorkflowStep} {sid : String}
    {f : WorkflowStep → WorkflowStep} {u : WorkflowStep}
    (h : u ∈ steps) (hne : u.step_id ≠ sid) : u ∈ updStep steps sid f := by
  unfold updStep
  have : (fun t => if t.step_id = sid then f t else t) u = u := by simp [hne]
  exact this ▸ List.mem_map_of_mem _ h

theorem updStep_mem_cases {steps : List WorkflowStep} {sid : String}
    {f : WorkflowStep → WorkflowStep} {u' : WorkflowStep}
    (h : u' ∈ updStep steps sid f) :
    (u' ∈ steps ∧ u'.step_id ≠ sid ∧
      (fun t => if t.step_id = sid then f t else t) u' = u') ∨
    (∃ u ∈ steps, u.step_id = sid ∧ u' = f u) := by
  unfold updStep at h
  obtain ⟨u, hu, hu'⟩ := List.mem_map.mp h
  by_cases hc : u.step_id = sid
  · right; exact ⟨u, hu, hc, by simpa [hc] using hu'.symm⟩
  · left
    have : u' = u := by simpa [hc] using hu'.symm
    subst this
    exact ⟨hu, hc, by simp [hc]⟩

theorem updStep_collapse (steps : List WorkflowStep) (sid : String)
    (g1 g2 : WorkflowStep → WorkflowStep)
    (hid : ∀ t, (g1 t).step_id = t.step_id) :
    updStep (updStep steps sid g1) sid g2 =
      updStep steps sid (fun t => g2 (g1 t)) := by
  unfold updStep
  rw [List.map_map]
  apply List.map_congr_left
  intro t _
  by_cases h : t.step_id = sid <;> simp [h, hid]

/-! Unfolding equations for `processReady`, with the two successive step
mutations collapsed into one. -/

theorem processReady_nil (execs : String → Option Executor)
    (steps : List WorkflowStep) (c : List String) (tr : List Event) :
    processReady execs [] steps c tr = ⟨steps, c, false, tr⟩ := rfl

theorem processReady_cons_none {execs : String → Option Executor}
    {s : WorkflowStep} (rest steps : List WorkflowStep) (c : List String)
    (tr : List Event) (h : execs s.action = none) :
    processReady execs (s :: rest) steps c tr =
      processReady execs rest
        (updStep steps s.step_id (fun t => { t with status := WorkflowStatus.completed }))
        (setAdd c s.step_id) (tr ++ [Event.dispatched s steps]) := by
  simp only [processReady, h]
  rw [updStep_collapse]
  intro t; rfl

theorem processReady_cons_ok {execs : String → Option Executor}
    {s : WorkflowStep} {f : Executor} {v : String}
    (rest steps : List WorkflowStep) (c : List String) (tr : List Event)
    (h : execs s.action = some f)
    (hv : f { s with status := WorkflowStatus.running } = Except.ok v) :
    processReady execs (s :: rest) steps c tr =
      processReady execs rest
        (updStep steps s.step_id
          (fun t => { t with result := some v, status := WorkflowStatus.completed }))
        (setAdd c s.step_id) (tr ++ [Event.dispatched s steps]) := by
  simp only [processReady, h, hv]
  rw [updStep_collapse]
  intro t; rfl

theorem processReady_cons_err {execs : String → Option Executor}
    {s : WorkflowStep} {f : Executor} {e : String}
    (rest steps : List WorkflowStep) (c : List String) (tr : List Event)
    (h : execs s.action = some f)
    (hv : f { s with status := WorkflowStatus.running } = Except.error e) :
    processReady execs (s :: rest) steps c tr =
      ⟨updStep steps s.step_id
          (fun t => { t with status := WorkflowStatus.failed, error := some e }),
        c, true,
        tr ++ [Event.dispatched s steps] ++ [Event.execFailed s.step_id e]⟩ := by
  simp only [processReady, h, hv]
  rw [updStep_collapse]
  intro t; rfl

/-! Lemmas about the completed-set operations. -/

theorem mem_setAdd_iff {c : List String} {x y : String} :
    y ∈ setAdd c x ↔ y ∈ c ∨ y = x := by
  unfold setAdd
  by_cases h : c.contains x
  · rw [if_pos h]
    constructor
    · exact Or.inl
    · rintro (hy | rfl)
      · exact hy
      · exact List.mem_of_elem_eq_true h
  · rw [if_neg h]
    simp [List.mem_append]

theorem setAdd_nodup {c : List String} {x : String} (h : c.Nodup) :
    (setAdd c x).Nodup := by
  unfold setAdd
  by_cases hc : c.contains x
  · rwa [if_pos hc]
  · rw [if_neg hc]
    refine List.Nodup.append h (List.nodup_singleton x) ?_
    intro y hy hx
    rw [List.mem_singleton] at hx
    subst hx
    exact hc (List.elem_eq_true_of_mem hy)

theorem setAdd_append (c : List String) (x : String) :
    ∃ δ, setAdd c x = c ++ δ ∧ ∀ y ∈ δ, y = x := by
  unfold setAdd
  by_cases h : c.contains x
  · rw [if_pos h]; exact ⟨[], by simp⟩
  · rw [if_neg h]; exact ⟨[x], by simp⟩

theorem setAdd_length_of_not_mem {c : List String} {x : String} (h : x ∉ c) :
    (setAdd c x).length = c.length + 1 := by
  unfold setAdd
  rw [if_neg (fun hc => h (List.mem_of_elem_eq_true hc))]
  simp

/-! Structural lemmas about `processReady`: it preserves the ids and the
dependency lists of the step table, only appends to the trace, and only
appends ids of dispatched frontier steps to the completed set. -/

theorem processReady_ids (execs : String → Option Executor) :
    ∀ (ready steps : List WorkflowStep) (c : List String) (tr : List Event),
    (processReady execs ready steps c tr).steps.map (fun t => t.step_id) =
      steps.map (fun t => t.step_id) := by
  intro ready
  induction ready with
  | nil => intro steps c tr; rfl
  | cons s rest ih =>
    intro steps c tr
    rcases hE : execs s.action with _ | f
    · rw [processReady_cons_none rest steps c tr hE, ih]
      exact updStep_map_stepId _ _ _ (fun t => rfl)
    · rcases hv : f { s with status := WorkflowStatus.running } with e | v
      · rw [processReady_cons_err rest steps c tr hE hv]
        exact updStep_map_stepId _ _ _ (fun t => rfl)
      · rw [processReady_cons_ok rest steps c tr hE hv, ih]
        exact updStep_map_stepId _ _ _ (fun t => rfl)

theorem processReady_deps (execs : String → Option Executor) :
    ∀ (ready steps : List WorkflowStep) (c : List String) (tr : List Event),
    (processReady execs ready steps c tr).steps.map (fun t => t.dependencies) =
      steps.map (fun t => t.dependencies) := by
  intro ready
  induction ready with
  | nil => intro steps c tr; rfl
  | cons s rest ih =>
    intro steps c tr
    rcases hE : execs s.action with _ | f
    · rw [processReady_cons_none rest steps c tr hE, ih]
      exact updStep_map_deps _ _ _ (fun t => rfl)
    · rcases hv : f { s with status := WorkflowStatus.running } with e | v
      · rw [processReady_cons_err rest steps c tr hE hv]
        exact updStep_map_deps _ _ _ (fun t => rfl)
      · rw [processReady_cons_ok rest steps c tr hE hv, ih]
        exact updStep_map_deps _ _ _ (fun t => rfl)

theorem processReady_len (execs : String → Option Executor)
    (ready steps : List WorkflowStep) (c : List String) (tr : List Event) :
    (processReady execs ready steps c tr).steps.length = steps.length := by
  have h := processReady_ids execs ready steps c tr
  have := congrArg List.length h
  simpa using this

theorem processReady_trace (execs : String → Option Executor) :
    ∀ (ready steps : List WorkflowStep) (c : List String) (tr : List Event),
    ∃ δ, (processReady execs ready steps c tr).trace = tr ++ δ := by
  intro ready
  induction ready with
  | nil => intro steps c tr; exact ⟨[], by simp [processReady_nil]⟩
  | cons s rest ih =>
    intro steps c tr
    rcases hE : execs s.action with _ | f
    · rw [processReady_cons_none rest steps c tr hE]
      obtain ⟨δ, hδ⟩ := ih _ _ _
      exact ⟨[Event.dispatched s steps] ++ δ, by rw [hδ, List.append_assoc]⟩
    · rcases hv : f { s with status := WorkflowStatus.running } with e | v
      · rw [processReady_cons_err rest steps c tr hE hv]
        exact ⟨[Event.dispatched s steps] ++ [Event.execFailed s.step_id e],
          by simp⟩
      · rw [processReady_cons_ok rest steps c tr hE hv]
        obtain ⟨δ, hδ⟩ := ih _ _ _
        exact ⟨[Event.dispatched s steps] ++ δ, by rw [hδ, List.append_assoc]⟩

theorem processReady_c (execs : String → Option Executor) :
    ∀ (ready steps : List WorkflowStep) (c : List String) (tr : List Event),
    ∃ δ, (processReady execs ready steps c tr).completedSet = c ++ δ ∧
      ∀ x ∈ δ, ∃ s ∈ ready, x = s.step_id := by
  intro ready
  induction ready with
  | nil => intro steps c tr; exact ⟨[], by simp [processReady_nil], by simp⟩
  | cons s rest ih =>
    intro steps c tr
    have step_case :
        ∀ steps' tr',
        (∃ δ, (processReady execs rest steps' (setAdd c s.step_id) tr').completedSet
            = c ++ δ ∧ ∀ x ∈ δ, ∃ u ∈ s :: rest, x = u.step_id) := by
      intro steps' tr'
      obtain ⟨δ1, hδ1, hmem1⟩ := setAdd_append c s.step_id
      obtain ⟨δ2, hδ2, hmem2⟩ := ih steps' (setAdd c s.step_id) tr'
      refine ⟨δ1 ++ δ2, by rw [hδ2, hδ1, List.append_assoc], ?_⟩
      intro x hx
      rcases List.mem_append.mp hx with hx | hx
      · exact ⟨s, List.mem_cons_self s rest, hmem1 x hx⟩
      · obtain ⟨u, hu, hxu⟩ := hmem2 x hx
        exact ⟨u, List.mem_cons_of_mem s hu, hxu⟩
    rcases hE : execs s.action with _ | f
    · rw [processReady_cons_none rest steps c tr hE]
      exact step_case _ _
    · rcases hv : f { s with status := WorkflowStatus.running } with e | v
      · rw [processReady_cons_err rest steps c tr hE hv]
        exact ⟨[], by simp⟩
      · rw [processReady_cons_ok rest steps c tr hE hv]
        exact step_case _ _

theorem processReady_nodupC (execs : String → Option Executor) :
    ∀ (ready steps : List WorkflowStep) (c : List String) (tr : List Event),
    c.Nodup → (processReady execs ready steps c tr).completedSet.Nodup := by
  intro ready
  induction ready with
  | nil => intro steps c tr h; exact h
  | cons s rest ih =>
    intro steps c tr h
    rcases hE : execs s.action with _ | f
    · rw [processReady_cons_none rest steps c tr hE]
      exact ih _ _ _ (setAdd_nodup h)
    · rcases hv : f { s with status := WorkflowStatus.running } with e | v
      · rw [processReady_cons_err rest steps c tr hE hv]
        exact h
      · rw [processReady_cons_ok rest steps c tr hE hv]
        exact ih _ _ _ (setAdd_nodup h)

theorem updStep_mem_self {steps : List WorkflowStep} {sid : String}
    {f : WorkflowStep → WorkflowStep} {u : WorkflowStep}
    (h : u ∈ steps) (heq : u.step_id = sid) : f u ∈ updStep steps sid f := by
  unfold updStep
  have he : (fun t => if t.step_id = sid then f t else t) u = f u := by simp [heq]
  exact he ▸ List.mem_map_of_mem _ h

/-- Steps whose id is not dispatched in this round are carried through the
round entirely unchanged. -/
theorem processReady_untouched (execs : String → Option Executor) :
    ∀ (ready steps : List WorkflowStep) (c : List String) (tr : List Event)
      (u : WorkflowStep), u ∈ steps →
      u.step_id ∉ ready.map (fun t => t.step_id) →
      u ∈ (processReady execs ready steps c tr).steps := by
  intro ready
  induction ready with
  | nil => intro steps c tr u hu _; exact hu
  | cons s rest ih =>
    intro steps c tr u hu hid
    simp only [List.map_cons, List.mem_cons, not_or] at hid
    obtain ⟨hne, hrest⟩ := hid
    rcases hE : execs s.action with _ | f
    · rw [processReady_cons_none rest steps c tr hE]
      exact ih _ _ _ _ (updStep_mem_of_ne hu hne) (by simpa using hrest)
    · rcases hv : f { s with status := WorkflowStatus.running } with e | v
      · rw [processReady_cons_err rest steps c tr hE hv]
        exact updStep_mem_of_ne hu hne
      · rw [processReady_cons_ok rest steps c tr hE hv]
        exact ih _ _ _ _ (updStep_mem_of_ne hu hne) (by simpa using hrest)

/-- Every step of the table after a round descends from a step of the
table before it with the same id, and is identical to it when its id was
not part of the dispatched frontier. -/
theorem processReady_from (execs : String → Option Executor) :
    ∀ (ready steps : List WorkflowStep) (c : List String) (tr : List Event)
      (u' : WorkflowStep), u' ∈ (processReady execs ready steps c tr).steps →
      ∃ u ∈ steps, u'.step_id = u.step_id ∧
        (u.step_id ∉ ready.map (fun t => t.step_id) → u' = u) := by
  intro ready
  induction ready with
  | nil =>
    intro steps c tr u' hu'
    exact ⟨u', hu', rfl, fun _ => rfl⟩
  | cons s rest ih =>
    intro steps c tr u' hu'
    have base :
        ∀ g : WorkflowStep → WorkflowStep, (∀ t, (g t).step_id = t.step_id) →
        u' ∈ updStep steps s.step_id g ∨
          (∃ u ∈ updStep steps s.step_id g, u'.step_id = u.step_id ∧
            (u.step_id ∉ rest.map (fun t => t.step_id) → u' = u)) →
        ∃ u ∈ steps, u'.step_id = u.step_id ∧
          (u.step_id ∉ (s :: rest).map (fun t => t.step_id) → u' = u) := by
      intro g hg hcase
      have hmem : ∃ u1 ∈ updStep steps s.step_id g, u'.step_id = u1.step_id ∧
          (u1.step_id ∉ rest.map (fun t => t.step_id) → u' = u1) := by
        rcases hcase with h | h
        · exact ⟨u', h, rfl, fun _ => rfl⟩
        · exact h
      obtain ⟨u1, hu1, hid1, heq1⟩ := hmem
      rcases updStep_mem_cases hu1 with ⟨hu1s, hne, _⟩ | ⟨u0, hu0, hid0, rfl⟩
      · refine ⟨u1, hu1s, hid1, fun hn => ?_⟩
        simp only [List.map_cons, List.mem_cons, not_or] at hn
        exact heq1 hn.2
      · refine ⟨u0, hu0, by rw [hid1, hg], fun hn => ?_⟩
        exact absurd (by rw [hid0]; simp) hn
    rcases hE : execs s.action with _ | f
    · rw [processReady_cons_none rest steps c tr hE] at hu'
      obtain ⟨u1, hu1, hid1, heq1⟩ := ih _ _ _ _ hu'
      exact base (fun t => { t with status := WorkflowStatus.completed })
        (fun t => rfl) (Or.inr ⟨u1, hu1, hid1, heq1⟩)
    · rcases hv : f { s with status := WorkflowStatus.running } with e | v
      · rw [processReady_cons_err rest steps c tr hE hv] at hu'
        exact base
          (fun t => { t with status := WorkflowStatus.failed, error := some e })
          (fun t => rfl) (Or.inl hu')
      · rw [processReady_cons_ok rest steps c tr hE hv] at hu'
        obtain ⟨u1, hu1, hid1, heq1⟩ := ih _ _ _ _ hu'
        exact base
          (fun t => { t with result := some v, status := WorkflowStatus.completed })
          (fun t => rfl) (Or.inr ⟨u1, hu1, hid1, heq1⟩)

/-- Every event present after a round was either already in the trace, or
is the dispatch of a frontier step, or the failure of a frontier step. -/
theorem processReady_events (execs : String → Option Executor) :
    ∀ (ready steps : List WorkflowStep) (c : List String) (tr : List Event)
      (ev : Event), ev ∈ (processReady execs ready steps c tr).trace →
      ev ∈ tr ∨ (∃ s ∈ ready, ∃ stAt, ev = Event.dispatched s stAt) ∨
        (∃ s ∈ ready, ∃ m, ev = Event.execFailed s.step_id m) := by
  intro ready
  induction ready with
  | nil => intro steps c tr ev hev; exact Or.inl hev
  | cons s rest ih =>
    intro steps c tr ev hev
    have lift :
        ev ∈ tr ++ [Event.dispatched s steps] ∨
          (∃ u ∈ rest, ∃ stAt, ev = Event.dispatched u stAt) ∨
          (∃ u ∈ rest, ∃ m, ev = Event.execFailed u.step_id m) →
        ev ∈ tr ∨ (∃ u ∈ s :: rest, ∃ stAt, ev = Event.dispatched u stAt) ∨
          (∃ u ∈ s :: rest, ∃ m, ev = Event.execFailed u.step_id m) := by
      rintro (h | ⟨u, hu, stAt, rfl⟩ | ⟨u, hu, m, rfl⟩)
      · rcases List.mem_append.mp h with h | h
        · exact Or.inl h
        · rw [List.mem_singleton] at h
          exact Or.inr (Or.inl ⟨s, List.mem_cons_self s rest, steps, h⟩)
      · exact Or.inr (Or.inl ⟨u, List.mem_cons_of_mem s hu, stAt, rfl⟩)
      · exact Or.inr (Or.inr ⟨u, List.mem_cons_of_mem s hu, m, rfl⟩)
    rcases hE : execs s.action with _ | f
    · rw [processReady_cons_none rest steps c tr hE] at hev
      exact lift (ih _ _ _ _ hev)
    · rcases hv : f { s with status := WorkflowStatus.running } with e | v
      · rw [processReady_cons_err rest steps c tr hE hv] at hev
        rcases List.mem_append.mp hev with h | h
        · exact lift (Or.inl h)
        · rw [List.mem_singleton] at h
          exact Or.inr (Or.inr ⟨s, List.mem_cons_self s rest, e, h⟩)
      · rw [processReady_cons_ok rest steps c tr hE hv] at hev
        exact lift (ih _ _ _ _ hev)

/-- Invariant preservation: every step whose id is in the completed set
has status COMPLETED, provided the frontier ids are fresh and
duplicate-free.  Holds whether or not the round fails. -/
theorem processReady_comp (execs : String → Option Executor) :
    ∀ (ready steps : List WorkflowStep) (c : List String) (tr : List Event),
    (∀ u ∈ steps, u.step_id ∈ c → u.status = WorkflowStatus.completed) →
    (∀ t ∈ ready, t.step_id ∉ c) →
    ((ready.map (fun t => t.step_id)).Nodup) →
    ∀ u ∈ (processReady execs ready steps c tr).steps,
      u.step_id ∈ (processReady execs ready steps c tr).completedSet →
      u.status = WorkflowStatus.completed := by
  intro ready
  induction ready with
  | nil => intro steps c tr hcomp _ _ u hu hc; exact hcomp u hu hc
  | cons s rest ih =>
    intro steps c tr hcomp hfresh hnd u hu hc
    simp only [List.map_cons, List.nodup_cons] at hnd
    have hstep : ∀ (g : WorkflowStep → WorkflowStep),
        (∀ t, (g t).status = WorkflowStatus.completed) →
        ∀ u' ∈ updStep steps s.step_id g,
          u'.step_id ∈ setAdd c s.step_id → u'.status = WorkflowStatus.completed := by
      intro g hgstat u' hu' hc'
      rcases updStep_mem_cases hu' with ⟨hin, hne, _⟩ | ⟨u0, _, _, rfl⟩
      · rcases mem_setAdd_iff.mp hc' with h | h
        · exact hcomp u' hin h
        · exact absurd h hne
      · exact hgstat u0
    have hfresh2 : ∀ t ∈ rest, t.step_id ∉ setAdd c s.step_id := by
      intro t ht h
      rcases mem_setAdd_iff.mp h with h | h
      · exact hfresh t (List.mem_cons_of_mem s ht) h
      · exact hnd.1 (h ▸ List.mem_map_of_mem (fun t => t.step_id) ht)
    rcases hE : execs s.action with _ | f
    · rw [processReady_cons_none rest steps c tr hE] at hu hc
      exact ih _ _ _
        (hstep (fun t => { t with status := WorkflowStatus.completed })
          (fun t => rfl)) hfresh2 hnd.2 u hu hc
    · rcases hv : f { s with status := WorkflowStatus.running } with e | v
      · rw [processReady_cons_err rest steps c tr hE hv] at hu hc
        rcases updStep_mem_cases hu with ⟨hin, hne, _⟩ | ⟨u0, _, hid0, rfl⟩
        · exact hcomp u hin hc
        · exact absurd hc (by
            have : u0.step_id = s.step_id := hid0
            simpa [this] using hfresh s (List.mem_cons_self s rest))
      · rw [processReady_cons_ok rest steps c tr hE hv] at hu hc
        exact ih _ _ _
          (hstep (fun t => { t with result := some v, status := WorkflowStatus.completed })
            (fun t => rfl)) hfresh2 hnd.2 u hu hc

/-- When no executor ever raises, every step whose id is not in the
completed set still has status PENDING after a round. -/
theorem processReady_pend {execs : String → Option Executor}
    (hexec : ExecsOk execs) :
    ∀ (ready steps : List WorkflowStep) (c : List String) (tr : List Event),
    (∀ u ∈ steps, u.step_id ∉ c → u.status = WorkflowStatus.pending) →
    ∀ u ∈ (processReady execs ready steps c tr).steps,
      u.step_id ∉ (processReady execs ready steps c tr).completedSet →
      u.status = WorkflowStatus.pending := by
  intro ready
  induction ready with
  | nil => intro steps c tr hpend u hu hc; exact hpend u hu hc
  | cons s rest ih =>
    intro steps c tr hpend u hu hc
    have hstep : ∀ (g : WorkflowStep → WorkflowStep),
        (∀ t, (g t).step_id = t.step_id) →
        ∀ u' ∈ updStep steps s.step_id g,
          u'.step_id ∉ setAdd c s.step_id → u'.status = WorkflowStatus.pending := by
      intro g hgid u' hu' hc'
      rcases updStep_mem_cases hu' with ⟨hin, _, _⟩ | ⟨u0, _, hid0, rfl⟩
      · exact hpend u' hin (fun h => hc' (mem_setAdd_iff.mpr (Or.inl h)))
      · exact absurd (mem_setAdd_iff.mpr (Or.inr (by rw [hgid, hid0])))
          hc'
    rcases hE : execs s.action with _ | f
    · rw [processReady_cons_none rest steps c tr hE] at hu hc
      exact ih _ _ _
        (hstep (fun t => { t with status := WorkflowStatus.completed })
          (fun t => rfl)) u hu hc
    · rcases hv : f { s with status := WorkflowStatus.running } with e | v
      · exfalso
        obtain ⟨v, hv2⟩ := hexec s.action f hE { s with status := WorkflowStatus.running }
        rw [hv] at hv2
        exact Except.noConfusion hv2
      · rw [processReady_cons_ok rest steps c tr hE hv] at hu hc
        exact ih _ _ _
          (hstep (fun t => { t with result := some v, status := WorkflowStatus.completed })
            (fun t => rfl)) u hu hc

/-- When no executor ever raises, a round never sets the failed flag. -/
theorem processReady_noFail {execs : String → Option Executor}
    (hexec : ExecsOk execs) :
    ∀ (ready steps : List WorkflowStep) (c : List String) (tr : List Event),
    (processReady execs ready steps c tr).failed = false := by
  intro ready
  induction ready with
  | nil => intro steps c tr; rw [processReady_nil]
  | cons s rest ih =>
    intro steps c tr
    rcases hE : execs s.action with _ | f
    · rw [processReady_cons_none rest steps c tr hE]; exact ih _ _ _
    · rcases hv : f { s with status := WorkflowStatus.running } with e | v
      · exfalso
        obtain ⟨v, hv2⟩ := hexec s.action f hE { s with status := WorkflowStatus.running }
        rw [hv] at hv2
        exact Except.noConfusion hv2
      · rw [processReady_cons_ok rest steps c tr hE hv]; exact ih _ _ _

/-- If a round finishes without failure, every frontier step's id has been
added to the completed set. -/
theorem processReady_processed (execs : String → Option Executor) :
    ∀ (ready steps : List WorkflowStep) (c : List String) (tr : List Event),
    (processReady execs ready steps c tr).failed = false →
    ∀ t ∈ ready, t.step_id ∈ (processReady execs ready steps c tr).completedSet := by
  intro ready
  induction ready with
  | nil => intro steps c tr _ t ht; cases ht
  | cons s rest ih =>
    intro steps c tr hf t ht
    have hself : ∀ steps' tr',
        s.step_id ∈ (processReady execs rest steps' (setAdd c s.step_id) tr').completedSet := by
      intro steps' tr'
      obtain ⟨δ, hδ, _⟩ := processReady_c execs rest steps' (setAdd c s.step_id) tr'
      rw [hδ]
      exact List.mem_append.mpr (Or.inl (mem_setAdd_iff.mpr (Or.inr rfl)))
    rcases hE : execs s.action with _ | f
    · rw [processReady_cons_none rest steps c tr hE] at hf ⊢
      rcases List.mem_cons.mp ht with rfl | ht
      · exact hself _ _
      · exact ih _ _ _ hf t ht
    · rcases hv : f { s with status := WorkflowStatus.running } with e | v
      · rw [processReady_cons_err rest steps c tr hE hv] at hf
        exact absurd hf (by simp)
      · rw [processReady_cons_ok rest steps c tr hE hv] at hf ⊢
        rcases List.mem_cons.mp ht with rfl | ht
        · exact hself _ _
        · exact ih _ _ _ hf t ht

/-- Every new dispatch event of a round happened while all dependencies of
the dispatched step were COMPLETED in the recorded step-table snapshot. -/
theorem processReady_dispatch_deps (execs : String → Option Executor) :
    ∀ (ready steps : List WorkflowStep) (c : List String) (tr : List Event),
    (∀ t ∈ ready, ∀ d ∈ t.dependencies, d ∈ c) →
    (∀ u ∈ steps, u.step_id ∈ c → u.status = WorkflowStatus.completed) →
    ∀ ev ∈ (processReady execs ready steps c tr).trace, ev ∈ tr ∨
      ∀ s stAt, ev = Event.dispatched s stAt →
        ∀ d ∈ s.dependencies, ∀ t ∈ stAt, t.step_id = d →
          t.status = WorkflowStatus.completed := by
  intro ready
  induction ready with
  | nil => intro steps c tr _ _ ev hev; exact Or.inl hev
  | cons s rest ih =>
    intro steps c tr hdeps hcomp ev hev
    have hdisp : ∀ s' stAt, Event.dispatched s steps = Event.dispatched s' stAt →
        ∀ d ∈ s'.dependencies, ∀ t ∈ stAt, t.step_id = d →
          t.status = WorkflowStatus.completed := by
      rintro s' stAt hev d hd t ht htd
      obtain ⟨rfl, rfl⟩ : s = s' ∧ steps = stAt := by
        injection hev with h1 h2; exact ⟨h1, h2⟩
      exact hcomp t ht (htd ▸ hdeps s (List.mem_cons_self s rest) d hd)
    have hcomp2 : ∀ (g : WorkflowStep → WorkflowStep),
        (∀ t, (g t).status = WorkflowStatus.completed) →
        ∀ u ∈ updStep steps s.step_id g,
          u.step_id ∈ setAdd c s.step_id → u.status = WorkflowStatus.completed := by
      intro g hgstat u hu hc
      rcases updStep_mem_cases hu with ⟨hin, hne, _⟩ | ⟨u0, _, _, rfl⟩
      · rcases mem_setAdd_iff.mp hc with h | h
        · exact hcomp u hin h
        · exact absurd h hne
      · exact hgstat u0
    have hdeps2 : ∀ t ∈ rest, ∀ d ∈ t.dependencies, d ∈ setAdd c s.step_id := by
      intro t ht d hd
      exact mem_setAdd_iff.mpr
        (Or.inl (hdeps t (List.mem_cons_of_mem s ht) d hd))
    have hlift : ev ∈ tr ++ [Event.dispatched s steps] → ev ∈ tr ∨
        ∀ s' stAt, ev = Event.dispatched s' stAt →
          ∀ d ∈ s'.dependencies, ∀ t ∈ stAt, t.step_id = d →
            t.status = WorkflowStatus.completed := by
      intro h
      rcases List.mem_append.mp h with h | h
      · exact Or.inl h
      · rw [List.mem_singleton] at h
        subst h
        exact Or.inr hdisp
    rcases hE : execs s.action with _ | f
    · rw [processReady_cons_none rest steps c tr hE] at hev
      rcases ih _ _ _ hdeps2
        (hcomp2 (fun t => { t with status := WorkflowStatus.completed })
          (fun t => rfl)) ev hev with h | h
      · exact hlift h
      · exact Or.inr h
    · rcases hv : f { s with status := WorkflowStatus.running } with e | v
      · rw [processReady_cons_err rest steps c tr hE hv] at hev
        rcases List.mem_append.mp hev with h | h
        · exact hlift h
        · rw [List.mem_singleton] at h
          subst h
          exact Or.inr (by rintro s' stAt ⟨⟩)
      · rw [processReady_cons_ok rest steps c tr hE hv] at hev
        rcases ih _ _ _ hdeps2
          (hcomp2 (fun t => { t with result := some v, status := WorkflowStatus.completed })
            (fun t => rfl)) ev hev with h | h
        · exact hlift h
        · exact Or.inr h

/-- If a round does not fail, every new event of the round is a dispatch
event. -/
theorem processReady_ok_events (execs : String → Option Executor) :
    ∀ (ready steps : List WorkflowStep) (c : List String) (tr : List Event),
    (processReady execs ready steps c tr).failed = false →
    ∀ ev ∈ (processReady execs ready steps c tr).trace,
      ev ∈ tr ∨ ev.isDispatchEvent = true := by
  intro ready
  induction ready with
  | nil => intro steps c tr _ ev hev; exact Or.inl hev
  | cons s rest ih =>
    intro steps c tr hf ev hev
    have hlift : ev ∈ tr ++ [Event.dispatched s steps] →
        ev ∈ tr ∨ ev.isDispatchEvent = true := by
      intro h
      rcases List.mem_append.mp h with h | h
      · exact Or.inl h
      · rw [List.mem_singleton] at h
        subst h
        exact Or.inr rfl
    rcases hE : execs s.action with _ | f
    · rw [processReady_cons_none rest steps c tr hE] at hf hev
      rcases ih _ _ _ hf ev hev with h | h
      · exact hlift h
      · exact Or.inr h
    · rcases hv : f { s with status := WorkflowStatus.running } with e | v
      · rw [processReady_cons_err rest steps c tr hE hv] at hf
        exact absurd hf (by simp)
      · rw [processReady_cons_ok rest steps c tr hE hv] at hf hev
        rcases ih _ _ _ hf ev hev with h | h
        · exact hlift h
        · exact Or.inr h

/-- Shape of a failing round: the trace extends the old one by dispatch
events only, terminated by a single `execFailed` event, and every step
entry keyed by the failing id ends FAILED with the error recorded. -/
theorem processReady_fail_trace (execs : String → Option Executor) :
    ∀ (ready steps : List WorkflowStep) (c : List String) (tr : List Event),
    (processReady execs ready steps c tr).failed = true →
    ∃ sid m δ, (processReady execs ready steps c tr).trace =
        tr ++ δ ++ [Event.execFailed sid m] ∧
      (∀ ev ∈ δ, ev.isDispatchEvent = true) ∧
      (∀ u ∈ (processReady execs ready steps c tr).steps, u.step_id = sid →
        u.status = WorkflowStatus.failed ∧ u.error = some m) := by
  intro ready
  induction ready with
  | nil =>
    intro steps c tr hf
    rw [processReady_nil] at hf
    exact absurd hf (by simp)
  | cons s rest ih =>
    intro steps c tr hf
    rcases hE : execs s.action with _ | f
    · rw [processReady_cons_none rest steps c tr hE] at hf ⊢
      obtain ⟨sid, m, δ, htr, hδ, hst⟩ := ih _ _ _ hf
      refine ⟨sid, m, Event.dispatched s steps :: δ, ?_, ?_, hst⟩
      · rw [htr]; simp
      · intro ev hev
        rcases List.mem_cons.mp hev with rfl | hev
        · rfl
        · exact hδ ev hev
    · rcases hv : f { s with status := WorkflowStatus.running } with e | v
      · rw [processReady_cons_err rest steps c tr hE hv]
        refine ⟨s.step_id, e, [Event.dispatched s steps], by simp, ?_, ?_⟩
        · intro ev hev
          rw [List.mem_singleton] at hev
          subst hev
          rfl
        · intro u hu hid
          rcases updStep_mem_cases hu with ⟨_, hne, _⟩ | ⟨u0, _, _, rfl⟩
          · exact absurd hid hne
          · exact ⟨rfl, rfl⟩
      · rw [processReady_cons_ok rest steps c tr hE hv] at hf ⊢
        obtain ⟨sid, m, δ, htr, hδ, hst⟩ := ih _ _ _ hf
        refine ⟨sid, m, Event.dispatched s steps :: δ, ?_, ?_, hst⟩
        · rw [htr]; simp
        · intro ev hev
          rcases List.mem_cons.mp hev with rfl | hev
          · rfl
          · exact hδ ev hev

/-- A frontier step dispatched in this round whose action has no
registered executor is auto-completed: its table entry becomes the
dispatched snapshot with status COMPLETED (result and error untouched),
and its id joins the completed set. -/
theorem processReady_noexec (execs : String → Option Executor) :
    ∀ (ready steps : List WorkflowStep) (c : List String) (tr : List Event)
      (s : WorkflowStep) (stAt : List WorkflowStep),
    ((ready.map (fun t => t.step_id)).Nodup) →
    (∀ t ∈ ready, t ∈ steps) →
    Event.dispatched s stAt ∈ (processReady execs ready steps c tr).trace →
    Event.dispatched s stAt ∉ tr →
    execs s.action = none →
    { s with status := WorkflowStatus.completed } ∈
        (processReady execs ready steps c tr).steps ∧
      s.step_id ∈ (processReady execs ready steps c tr).completedSet := by
  intro ready
  induction ready with
  | nil =>
    intro steps c tr s stAt _ _ hev hnew _
    rw [processReady_nil] at hev
    exact absurd hev hnew
  | cons h rest ih =>
    intro steps c tr s stAt hnd hsub hev hnew hnone
    simp only [List.map_cons, List.nodup_cons] at hnd
    have hsub2 : ∀ g : WorkflowStep → WorkflowStep,
        ∀ t ∈ rest, t ∈ updStep steps h.step_id g := by
      intro g t ht
      refine updStep_mem_of_ne (hsub t (List.mem_cons_of_mem h ht)) ?_
      intro he
      exact hnd.1 (he ▸ List.mem_map_of_mem (fun t => t.step_id) ht)
    rcases hE : execs h.action with _ | f
    · rw [processReady_cons_none rest steps c tr hE] at hev ⊢
      by_cases hev1 : Event.dispatched s stAt ∈ tr ++ [Event.dispatched h steps]
      · rcases List.mem_append.mp hev1 with hc1 | hc1
        · exact absurd hc1 hnew
        · rw [List.mem_singleton] at hc1
          obtain ⟨rfl, rfl⟩ : s = h ∧ stAt = steps := by
            injection hc1 with h1 h2; exact ⟨h1, h2⟩
          constructor
          · refine processReady_untouched execs rest _ _ _ _ ?_ ?_
            · exact updStep_mem_self (hsub s (List.mem_cons_self s rest)) rfl
            · exact hnd.1
          · obtain ⟨δ, hδ, _⟩ := processReady_c execs rest _ (setAdd c s.step_id) _
            rw [hδ]
            exact List.mem_append.mpr (Or.inl (mem_setAdd_iff.mpr (Or.inr rfl)))
      · exact ih _ _ _ s stAt hnd.2 (hsub2 _) hev hev1 hnone
    · rcases hv : f { h with status := WorkflowStatus.running } with e | v
      · rw [processReady_cons_err rest steps c tr hE hv] at hev
        exfalso
        rcases List.mem_append.mp hev with hc1 | hc1
        · rcases List.mem_append.mp hc1 with hc2 | hc2
          · exact hnew hc2
          · rw [List.mem_singleton] at hc2
            obtain ⟨rfl, rfl⟩ : s = h ∧ stAt = steps := by
              injection hc2 with h1 h2; exact ⟨h1, h2⟩
            rw [hE] at hnone
            exact Option.noConfusion hnone
        · rw [List.mem_singleton] at hc1
          exact Event.noConfusion hc1
      · rw [processReady_cons_ok rest steps c tr hE hv] at hev ⊢
        by_cases hev1 : Event.dispatched s stAt ∈ tr ++ [Event.dispatched h steps]
        · rcases List.mem_append.mp hev1 with hc1 | hc1
          · exact absurd hc1 hnew
          · rw [List.mem_singleton] at hc1
            obtain ⟨rfl, rfl⟩ : s = h ∧ stAt = steps := by
              injection hc1 with h1 h2; exact ⟨h1, h2⟩
            rw [hE] at hnone
            exact Option.noConfusion hnone
        · exact ih _ _ _ s stAt hnd.2 (hsub2 _) hev hev1 hnone

/-- Full shape of a failing round, for the fail-fast claims: the frontier
splits as `r1 ++ s :: r2` where exactly `r1 ++ [s]` got dispatched in
order; every `r1` sibling ends COMPLETED, the failing step `s` ends
FAILED with its error recorded, and every later sibling's table entry is
completely untouched. -/
theorem processReady_fail_decomp (execs : String → Option Executor) :
    ∀ (ready steps : List WorkflowStep) (c : List String) (tr : List Event),
    ((ready.map (fun t => t.step_id)).Nodup) →
    (∀ t ∈ ready, t ∈ steps) →
    (processReady execs ready steps c tr).failed = true →
    ∃ r1 s r2 m δ, ready = r1 ++ s :: r2 ∧
      (processReady execs ready steps c tr).trace = tr ++ δ ∧
      dispatchIds δ = (r1 ++ [s]).map (fun t => t.step_id) ∧
      (∀ t ∈ r1, ∀ u ∈ (processReady execs ready steps c tr).steps,
        u.step_id = t.step_id → u.status = WorkflowStatus.completed) ∧
      (∀ u ∈ (processReady execs ready steps c tr).steps,
        u.step_id = s.step_id →
          u.status = WorkflowStatus.failed ∧ u.error = some m) ∧
      (∀ t ∈ r2, t ∈ (processReady execs ready steps c tr).steps) := by
  intro ready
  induction ready with
  | nil =>
    intro steps c tr _ _ hf
    rw [processReady_nil] at hf
    exact absurd hf (by simp)
  | cons h rest ih =>
    intro steps c tr hnd hsub hf
    simp only [List.map_cons, List.nodup_cons] at hnd
    have hsub2 : ∀ g : WorkflowStep → WorkflowStep,
        ∀ t ∈ rest, t ∈ updStep steps h.step_id g := by
      intro g t ht
      refine updStep_mem_of_ne (hsub t (List.mem_cons_of_mem h ht)) ?_
      intro he
      exact hnd.1 (he ▸ List.mem_map_of_mem (fun t => t.step_id) ht)
    rcases hE : execs h.action with _ | f
    · rw [processReady_cons_none rest steps c tr hE] at hf ⊢
      obtain ⟨r1, s, r2, m, δ, hready, htr, hids, hr1, hs, hr2⟩ :=
        ih _ _ _ hnd.2 (hsub2 _) hf
      refine ⟨h :: r1, s, r2, m, Event.dispatched h steps :: δ,
        by rw [hready, List.cons_append], by rw [htr]; simp, ?_, ?_, hs, hr2⟩
      · simp only [dispatchIds, List.filterMap_cons] at hids ⊢
        rw [hids]
        simp
      · intro t ht u hu hid
        rcases List.mem_cons.mp ht with rfl | ht
        · obtain ⟨u1, hu1, hid1, heq1⟩ := processReady_from execs rest _ _ _ u hu
          have hu1id : u1.step_id = t.step_id := by rw [← hid1, hid]
          have : u = u1 := heq1 (by
            rw [hu1id]
            exact hnd.1)
          subst this
          rcases updStep_mem_cases hu1 with ⟨_, hne, _⟩ | ⟨u0, _, _, rfl⟩
          · exact absurd hu1id hne
          · rfl
        · exact hr1 t ht u hu hid
    · rcases hv : f { h with status := WorkflowStatus.running } with e | v
      · rw [processReady_cons_err rest steps c tr hE hv] at hf ⊢
        refine ⟨[], h, rest, e,
          [Event.dispatched h steps, Event.execFailed h.step_id e],
          rfl, by simp, by simp [dispatchIds], by simp, ?_, ?_⟩
        · intro u hu hid
          rcases updStep_mem_cases hu with ⟨_, hne, _⟩ | ⟨u0, _, _, rfl⟩
          · exact absurd hid hne
          · exact ⟨rfl, rfl⟩
        · intro t ht
          exact hsub2 _ t ht
      · rw [processReady_cons_ok rest steps c tr hE hv] at hf ⊢
        obtain ⟨r1, s, r2, m, δ, hready, htr, hids, hr1, hs, hr2⟩ :=
          ih _ _ _ hnd.2 (hsub2 _) hf
        refine ⟨h :: r1, s, r2, m, Event.dispatched h steps :: δ,
          by rw [hready, List.cons_append], by rw [htr]; simp, ?_, ?_, hs, hr2⟩
        · simp only [dispatchIds, List.filterMap_cons] at hids ⊢
          rw [hids]
          simp
        · intro t ht u hu hid
          rcases List.mem_cons.mp ht with rfl | ht
          · obtain ⟨u1, hu1, hid1, heq1⟩ := processReady_from execs rest _ _ _ u hu
            have hu1id : u1.step_id = t.step_id := by rw [← hid1, hid]
            have : u = u1 := heq1 (by
              rw [hu1id]
              exact hnd.1)
            subst this
            rcases updStep_mem_cases hu1 with ⟨_, hne, _⟩ | ⟨u0, _, _, rfl⟩
            · exact absurd hu1id hne
            · rfl
          · exact hr1 t ht u hu hid

/-! Unfolding equations and characterizations for `runLoop` and
`readySteps`. -/

theorem isReadyStep_iff {c : List String} {t : WorkflowStep} :
    isReadyStep c t = true ↔ t.step_id ∉ c ∧
      t.status ≠ WorkflowStatus.running ∧ t.status ≠ WorkflowStatus.completed ∧
      t.status ≠ WorkflowStatus.failed ∧ ∀ d ∈ t.dependencies, d ∈ c := by
  unfold isReadyStep
  simp [List.elem_iff, and_assoc, not_or]

theorem mem_readySteps {steps : List WorkflowStep} {c : List String}
    {t : WorkflowStep} :
    t ∈ readySteps steps c ↔ t ∈ steps ∧ t.step_id ∉ c ∧
      t.status ≠ WorkflowStatus.running ∧ t.status ≠ WorkflowStatus.completed ∧
      t.status ≠ WorkflowStatus.failed ∧ ∀ d ∈ t.dependencies, d ∈ c := by
  rw [readySteps, List.mem_filter, isReadyStep_iff]

theorem readySteps_sublist (steps : List WorkflowStep) (c : List String) :
    List.Sublist (readySteps steps c) steps :=
  List.filter_sublist steps

theorem runLoop_done {execs : String → Option Executor} {fuel : Nat}
    {steps : List WorkflowStep} {c : List String} {tr : List Event}
    (h : ¬ c.length < steps.length) :
    runLoop execs (fuel + 1) steps c tr = some ⟨steps, c, false, tr⟩ := by
  simp [runLoop, h]

theorem runLoop_deadlock {execs : String → Option Executor} {fuel : Nat}
    {steps : List WorkflowStep} {c : List String} {tr : List Event}
    (h1 : c.length < steps.length) (h2 : readySteps steps c = []) :
    runLoop execs (fuel + 1) steps c tr = some ⟨steps, c, true, tr⟩ := by
  simp [runLoop, h1, h2]

theorem runLoop_round {execs : String → Option Executor} {fuel : Nat}
    {steps : List WorkflowStep} {c : List String} {tr : List Event}
    (h1 : c.length < steps.length) (h2 : readySteps steps c ≠ []) :
    runLoop execs (fuel + 1) steps c tr =
      (if (processReady execs (readySteps steps c) steps c tr).failed then
        some (processReady execs (readySteps steps c) steps c tr)
      else
        runLoop execs fuel
          (processReady execs (readySteps steps c) steps c tr).steps
          (processReady execs (readySteps steps c) steps c tr).completedSet
          (processReady execs (readySteps steps c) steps c tr).trace) := by
  have h2' : (readySteps steps c).isEmpty = false := by
    cases hr : readySteps steps c with
    | nil => exact absurd hr h2
    | cons a l => rfl
  simp [runLoop, h1, h2']

/-- The loop always has enough fuel when it exceeds the number of
not-yet-completed steps: each round either stops or strictly grows the
completed set. -/
theorem runLoop_isSome (execs : String → Option Executor) :
    ∀ (fuel : Nat) (steps : List WorkflowStep) (c : List String)
      (tr : List Event), steps.length - c.length < fuel →
    (runLoop execs fuel steps c tr).isSome = true := by
  intro fuel
  induction fuel with
  | zero => intro steps c tr h; omega
  | succ fuel ih =>
    intro steps c tr h
    by_cases h1 : c.length < steps.length
    · rcases hr : readySteps steps c with _ | ⟨hd, tl⟩
      · rw [runLoop_deadlock h1 hr]; rfl
      · rw [runLoop_round h1 (by rw [hr]; exact List.cons_ne_nil hd tl)]
        by_cases hfail :
            (processReady execs (readySteps steps c) steps c tr).failed
        · rw [if_pos hfail]; rfl
        · rw [if_neg hfail]
          apply ih
          have hlen := processReady_len execs (readySteps steps c) steps c tr
          obtain ⟨δ, hδ, _⟩ := processReady_c execs (readySteps steps c) steps c tr
          have hhd : hd.step_id ∈
              (processReady execs (readySteps steps c) steps c tr).completedSet := by
            apply processReady_processed execs (readySteps steps c) steps c tr
            · simpa using hfail
            · rw [hr]; exact List.mem_cons_self hd tl
          have hfresh : hd.step_id ∉ c := by
            have : hd ∈ readySteps steps c := by
              rw [hr]; exact List.mem_cons_self hd tl
            exact (mem_readySteps.mp this).2.1
          have hδne : δ ≠ [] := by
            intro hnil
            rw [hδ, hnil, List.append_nil] at hhd
            exact hfresh hhd
          have hgrow : (processReady execs (readySteps steps c) steps c tr).completedSet.length
              ≥ c.length + 1 := by
            rw [hδ, List.length_append]
            have : δ.length ≥ 1 := List.length_pos.mpr hδne
            omega
          omega
    · rw [runLoop_done h1]; rfl

theorem runLoop_ids (execs : String → Option Executor) :
    ∀ (fuel : Nat) (steps : List WorkflowStep) (c : List String)
      (tr : List Event) (out : RoundOut),
    runLoop execs fuel steps c tr = some out →
    out.steps.map (fun t => t.step_id) = steps.map (fun t => t.step_id) := by
  intro fuel
  induction fuel with
  | zero => intro steps c tr out h; exact absurd h (by rw [runLoop]; simp)
  | succ fuel ih =>
    intro steps c tr out h
    by_cases h1 : c.length < steps.length
    · rcases hr : readySteps steps c with _ | ⟨hd, tl⟩
      · rw [runLoop_deadlock h1 hr] at h
        cases h
        rfl
      · rw [runLoop_round h1 (by rw [hr]; exact List.cons_ne_nil hd tl)] at h
        by_cases hfail :
            (processReady execs (readySteps steps c) steps c tr).failed
        · rw [if_pos hfail] at h
          cases h
          exact processReady_ids execs (readySteps steps c) steps c tr
        · rw [if_neg hfail] at h
          rw [ih _ _ _ _ h]
          exact processReady_ids execs (readySteps steps c) steps c tr
    · rw [runLoop_done h1] at h
      cases h
      rfl

theorem runLoop_c_mono (execs : String → Option Executor) :
    ∀ (fuel : Nat) (steps : List WorkflowStep) (c : List String)
      (tr : List Event) (out : RoundOut),
    runLoop execs fuel steps c tr = some out →
    ∃ δ, out.completedSet = c ++ δ := by
  intro fuel
  induction fuel with
  | zero => intro steps c tr out h; exact absurd h (by rw [runLoop]; simp)
  | succ fuel ih =>
    intro steps c tr out h
    by_cases h1 : c.length < steps.length
    · rcases hr : readySteps steps c with _ | ⟨hd, tl⟩
      · rw [runLoop_deadlock h1 hr] at h
        cases h
        exact ⟨[], by simp⟩
      · rw [runLoop_round h1 (by rw [hr]; exact List.cons_ne_nil hd tl)] at h
        obtain ⟨δ1, hδ1, _⟩ := processReady_c execs (readySteps steps c) steps c tr
        by_cases hfail :
            (processReady execs (readySteps steps c) steps c tr).failed
        · rw [if_pos hfail] at h
          cases h
          exact ⟨δ1, hδ1⟩
        · rw [if_neg hfail] at h
          obtain ⟨δ2, hδ2⟩ := ih _ _ _ _ h
          exact ⟨δ1 ++ δ2, by rw [hδ2, hδ1, List.append_assoc]⟩
    · rw [runLoop_done h1] at h
      cases h
      exact ⟨[], by simp⟩

/-- A step whose status is RUNNING, COMPLETED or FAILED on entry of the
loop is never dispatched and survives every round unchanged. -/
theorem runLoop_frozen (execs : String → Option Executor) :
    ∀ (fuel : Nat) (steps : List WorkflowStep) (c : List String)
      (tr : List Event) (out : RoundOut) (u : WorkflowStep),
    ((steps.map (fun t => t.step_id)).Nodup) →
    u ∈ steps →
    (u.status = WorkflowStatus.running ∨ u.status = WorkflowStatus.completed ∨
      u.status = WorkflowStatus.failed) →
    runLoop execs fuel steps c tr = some out →
    u ∈ out.steps ∧
      ∀ ev ∈ out.trace, ev ∈ tr ∨
        ∀ s stAt, ev = Event.dispatched s stAt → s.step_id ≠ u.step_id := by
  intro fuel
  induction fuel with
  | zero => intro steps c tr out u _ _ _ h; exact absurd h (by rw [runLoop]; simp)
  | succ fuel ih =>
    intro steps c tr out u hnd hu hstat h
    by_cases h1 : c.length < steps.length
    · rcases hr : readySteps steps c with _ | ⟨hd, tl⟩
      · rw [runLoop_deadlock h1 hr] at h
        cases h
        exact ⟨hu, fun ev hev => Or.inl hev⟩
      · rw [runLoop_round h1 (by rw [hr]; exact List.cons_ne_nil hd tl)] at h
        have huid : u.step_id ∉
            (readySteps steps c).map (fun t => t.step_id) := by
          intro hmem
          obtain ⟨t, ht, htid⟩ := List.mem_map.mp hmem
          have htmem := (mem_readySteps.mp ht).1
          have : t = u := List.inj_on_of_nodup_map hnd htmem hu htid
          subst this
          have hspec := mem_readySteps.mp ht
          rcases hstat with hs | hs | hs
          · exact hspec.2.2.1 hs
          · exact hspec.2.2.2.1 hs
          · exact hspec.2.2.2.2.1 hs
        have huout1 : u ∈
            (processReady execs (readySteps steps c) steps c tr).steps :=
          processReady_untouched execs (readySteps steps c) steps c tr u hu huid
        have hev1 : ∀ ev ∈
            (processReady execs (readySteps steps c) steps c tr).trace,
            ev ∈ tr ∨ ∀ s stAt, ev = Event.dispatched s stAt →
              s.step_id ≠ u.step_id := by
          intro ev hev
          rcases processReady_events execs (readySteps steps c) steps c tr ev hev
            with h | ⟨s, hs, stAt, rfl⟩ | ⟨s, _, m, rfl⟩
          · exact Or.inl h
          · refine Or.inr ?_
            rintro s' stAt' hev'
            obtain ⟨rfl, rfl⟩ : s = s' ∧ stAt = stAt' := by
              injection hev' with a b; exact ⟨a, b⟩
            intro heq
            exact huid (heq ▸ List.mem_map_of_mem (fun t => t.step_id) hs)
          · exact Or.inr (by rintro s' stAt' ⟨⟩)
        by_cases hfail :
            (processReady execs (readySteps steps c) steps c tr).failed
        · rw [if_pos hfail] at h
          cases h
          exact ⟨huout1, hev1⟩
        · rw [if_neg hfail] at h
          have hnd2 : (((processReady execs (readySteps steps c) steps c tr).steps).map
              (fun t => t.step_id)).Nodup := by
            rw [processReady_ids]
            exact hnd
          obtain ⟨hmem, hevs⟩ := ih _ _ _ _ u hnd2 huout1 hstat h
          refine ⟨hmem, fun ev hev => ?_⟩
          rcases hevs ev hev with h2 | h2
          · exact hev1 ev h2
          · exact Or.inr h2
    · rw [runLoop_done h1] at h
      cases h
      exact ⟨hu, fun ev hev => Or.inl hev⟩

/-- The C2 invariant carried through the whole loop: dispatch only happens
when all dependencies are COMPLETED in the snapshot, and the completed
set only ever holds ids of COMPLETED steps. -/
theorem runLoop_comp (execs : String → Option Executor) :
    ∀ (fuel : Nat) (steps : List WorkflowStep) (c : List String)
      (tr : List Event) (out : RoundOut),
    ((steps.map (fun t => t.step_id)).Nodup) →
    (∀ u ∈ steps, u.step_id ∈ c → u.status = WorkflowStatus.completed) →
    runLoop execs fuel steps c tr = some out →
    (∀ ev ∈ out.trace, ev ∈ tr ∨
      ∀ s stAt, ev = Event.dispatched s stAt →
        ∀ d ∈ s.dependencies, ∀ t ∈ stAt, t.step_id = d →
          t.status = WorkflowStatus.completed) ∧
    (∀ u ∈ out.steps, u.step_id ∈ out.completedSet →
      u.status = WorkflowStatus.completed) := by
  intro fuel
  induction fuel with
  | zero => intro steps c tr out _ _ h; exact absurd h (by rw [runLoop]; simp)
  | succ fuel ih =>
    intro steps c tr out hnd hcomp h
    by_cases h1 : c.length < steps.length
    · rcases hr : readySteps steps c with _ | ⟨hd, tl⟩
      · rw [runLoop_deadlock h1 hr] at h
        cases h
        exact ⟨fun ev hev => Or.inl hev, hcomp⟩
      · rw [runLoop_round h1 (by rw [hr]; exact List.cons_ne_nil hd tl)] at h
        have hndr : (((readySteps steps c).map (fun t => t.step_id))).Nodup :=
          List.Nodup.sublist
            (List.Sublist.map (fun t => t.step_id) (readySteps_sublist steps c))
            hnd
        have hfresh : ∀ t ∈ readySteps steps c, t.step_id ∉ c :=
          fun t ht => (mem_readySteps.mp ht).2.1
        have hdeps : ∀ t ∈ readySteps steps c, ∀ d ∈ t.dependencies, d ∈ c :=
          fun t ht => (mem_readySteps.mp ht).2.2.2.2.2
        have hev1 := processReady_dispatch_deps execs (readySteps steps c)
          steps c tr hdeps hcomp
        have hcomp1 := processReady_comp execs (readySteps steps c)
          steps c tr hcomp hfresh hndr
        by_cases hfail :
            (processReady execs (readySteps steps c) steps c tr).failed
        · rw [if_pos hfail] at h
          cases h
          exact ⟨hev1, hcomp1⟩
        · rw [if_neg hfail] at h
          have hnd2 : (((processReady execs (readySteps steps c) steps c tr).steps).map
              (fun t => t.step_id)).Nodup := by
            rw [processReady_ids]
            exact hnd
          obtain ⟨hevs, hcomps⟩ := ih _ _ _ _ hnd2 hcomp1 h
          refine ⟨fun ev hev => ?_, hcomps⟩
          rcases hevs ev hev with h2 | h2
          · exact hev1 ev h2
          · exact Or.inr h2
    · rw [runLoop_done h1] at h
      cases h
      exact ⟨fun ev hev => Or.inl hev, hcomp⟩

/-- Trace shape over the whole loop: either no executor ever failed and
the trace is dispatch events only, or the run failed on its final event,
all earlier events being dispatches, with the failing step marked. -/
theorem runLoop_fail_trace (execs : String → Option Executor) :
    ∀ (fuel : Nat) (steps : List WorkflowStep) (c : List String)
      (tr : List Event) (out : RoundOut),
    (∀ ev ∈ tr, ev.isDispatchEvent = true) →
    runLoop execs fuel steps c tr = some out →
    (∀ ev ∈ out.trace, ev.isDispatchEvent = true) ∨
      (out.failed = true ∧ ∃ sid m δ,
        out.trace = δ ++ [Event.execFailed sid m] ∧
        (∀ ev ∈ δ, ev.isDispatchEvent = true) ∧
        (∀ u ∈ out.steps, u.step_id = sid →
          u.status = WorkflowStatus.failed ∧ u.error = some m)) := by
  intro fuel
  induction fuel with
  | zero => intro steps c tr out _ h; exact absurd h (by rw [runLoop]; simp)
  | succ fuel ih =>
    intro steps c tr out htr h
    by_cases h1 : c.length < steps.length
    · rcases hr : readySteps steps c with _ | ⟨hd, tl⟩
      · rw [runLoop_deadlock h1 hr] at h
        cases h
        exact Or.inl htr
      · rw [runLoop_round h1 (by rw [hr]; exact List.cons_ne_nil hd tl)] at h
        by_cases hfail :
            (processReady execs (readySteps steps c) steps c tr).failed
        · rw [if_pos hfail] at h
          cases h
          obtain ⟨sid, m, δ, htrace, hδ, hst⟩ :=
            processReady_fail_trace execs (readySteps steps c) steps c tr hfail
          refine Or.inr ⟨hfail, sid, m, tr ++ δ, by rw [htrace, List.append_assoc], ?_, hst⟩
          intro ev hev
          rcases List.mem_append.mp hev with h2 | h2
          · exact htr ev h2
          · exact hδ ev h2
        · rw [if_neg hfail] at h
          refine ih _ _ _ _ ?_ h
          intro ev hev
          rcases processReady_ok_events execs (readySteps steps c) steps c tr
            (by simpa using hfail) ev hev with h2 | h2
          · exact htr ev h2
          · exact h2
    · rw [runLoop_done h1] at h
      cases h
      exact Or.inl htr

/-- Matching by ids and dependency lists: every step of `steps'` has a
counterpart in `steps`. -/
theorem map_pair_transport : ∀ (steps' steps : List WorkflowStep),
    steps'.map (fun t => t.step_id) = steps.map (fun t => t.step_id) →
    steps'.map (fun t => t.dependencies) = steps.map (fun t => t.dependencies) →
    ∀ s' ∈ steps', ∃ s ∈ steps,
      s.step_id = s'.step_id ∧ s.dependencies = s'.dependencies := by
  intro steps'
  induction steps' with
  | nil => intro steps _ _ s' hs'; cases hs'
  | cons a rest ih =>
    intro steps hids hdeps s' hs'
    cases steps with
    | nil =>
      exact absurd (congrArg List.length hids) (by simp)
    | cons b bs =>
      simp only [List.map_cons, List.cons.injEq] at hids hdeps
      rcases List.mem_cons.mp hs' with rfl | hs'
      · exact ⟨b, List.mem_cons_self b bs, hids.1.symm, hdeps.1.symm⟩
      · obtain ⟨s, hs, h1, h2⟩ := ih bs hids.2 hdeps.2 s' hs'
        exact ⟨s, List.mem_cons_of_mem b hs, h1, h2⟩

/-- A ranking certificate survives any transformation that keeps ids and
dependency lists. -/
theorem RankOk_transport {rank : String → Nat} {steps steps' : List WorkflowStep}
    (hids : steps'.map (fun t => t.step_id) = steps.map (fun t => t.step_id))
    (hdeps : steps'.map (fun t => t.dependencies) = steps.map (fun t => t.dependencies))
    (h : RankOk rank steps) : RankOk rank steps' := by
  intro s' hs'
  obtain ⟨s, hs, hid, hdp⟩ := map_pair_transport steps' steps hids hdeps s' hs'
  intro d hd
  rw [← hdp] at hd
  obtain ⟨h1, h2⟩ := h s hs d hd
  exact ⟨by rw [hids]; exact h1, by rw [← hid]; exact h2⟩

/-- If fewer ids are completed than there are steps, some step is not yet
completed. -/
theorem exists_uncompleted {steps : List WorkflowStep} {c : List String}
    (hnd : (steps.map (fun t => t.step_id)).Nodup)
    (hlen : c.length < steps.length) :
    ∃ s ∈ steps, s.step_id ∉ c := by
  by_contra hcon
  push_neg at hcon
  have hsub : ∀ x ∈ steps.map (fun t => t.step_id), x ∈ c := by
    intro x hx
    obtain ⟨s, hs, rfl⟩ := List.mem_map.mp hx
    exact hcon s hs
  have hle := (List.subperm_of_subset hnd hsub).length_le
  rw [List.length_map] at hle
  omega

/-- Core of the DAG-progress argument: under the loop invariant, as long
as steps remain uncompleted the ready frontier of an acyclic, dangling
free workflow is nonempty (witnessed by an uncompleted step of minimal
rank). -/
theorem readySteps_ne_nil {rank : String → Nat} {steps : List WorkflowStep}
    {c : List String}
    (hrank : RankOk rank steps)
    (hnd : (steps.map (fun t => t.step_id)).Nodup)
    (hpend : ∀ u ∈ steps, u.step_id ∉ c → u.status = WorkflowStatus.pending)
    (hlen : c.length < steps.length) :
    readySteps steps c ≠ [] := by
  obtain ⟨s0, hs0, hs0c⟩ := exists_uncompleted hnd hlen
  have hne : (steps.filter (fun s => !(c.contains s.step_id))).toFinset.Nonempty := by
    refine ⟨s0, List.mem_toFinset.mpr (List.mem_filter.mpr ⟨hs0, ?_⟩)⟩
    simp [List.elem_iff, hs0c]
  obtain ⟨s, hsF, hmin⟩ := Finset.exists_min_image
    (steps.filter (fun s => !(c.contains s.step_id))).toFinset
    (fun t => rank t.step_id) hne
  have hsfil := List.mem_toFinset.mp hsF
  have hsmem := (List.mem_filter.mp hsfil).1
  have hsc : s.step_id ∉ c := by
    have := (List.mem_filter.mp hsfil).2
    simpa [List.elem_iff] using this
  have hspend := hpend s hsmem hsc
  apply List.ne_nil_of_mem (a := s)
  rw [mem_readySteps]
  refine ⟨hsmem, hsc, by rw [hspend]; exact fun h => WorkflowStatus.noConfusion h,
    by rw [hspend]; exact fun h => WorkflowStatus.noConfusion h,
    by rw [hspend]; exact fun h => WorkflowStatus.noConfusion h, ?_⟩
  intro d hd
  obtain ⟨hdin, hdrank⟩ := hrank s hsmem d hd
  by_contra hdc
  obtain ⟨t, htmem, htid⟩ := List.mem_map.mp hdin
  have htfil : t ∈ (steps.filter (fun s => !(c.contains s.step_id))).toFinset := by
    refine List.mem_toFinset.mpr (List.mem_filter.mpr ⟨htmem, ?_⟩)
    simp [List.elem_iff, htid ▸ hdc]
  have := hmin t htfil
  rw [htid] at this
  omega

/-- Main progress theorem: on an acyclic dangling-free workflow, with all
executors returning normally, the loop terminates without failure with
every step COMPLETED. -/
theorem runLoop_completes {execs : String → Option Executor}
    (hexec : ExecsOk execs) (rank : String → Nat) :
    ∀ (fuel : Nat) (steps : List WorkflowStep) (c : List String)
      (tr : List Event),
    steps.length - c.length < fuel →
    RankOk rank steps →
    ((steps.map (fun t => t.step_id)).Nodup) →
    c.Nodup →
    (∀ x ∈ c, x ∈ steps.map (fun t => t.step_id)) →
    (∀ u ∈ steps, u.step_id ∈ c → u.status = WorkflowStatus.completed) →
    (∀ u ∈ steps, u.step_id ∉ c → u.status = WorkflowStatus.pending) →
    ∃ out, runLoop execs fuel steps c tr = some out ∧ out.failed = false ∧
      (∀ u ∈ out.steps, u.status = WorkflowStatus.completed) ∧
      out.steps.map (fun t => t.step_id) = steps.map (fun t => t.step_id) := by
  intro fuel
  induction fuel with
  | zero => intro steps c tr hfuel; omega
  | succ fuel ih =>
    intro steps c tr hfuel hrank hnd hcnd hcsub hcomp hpend
    by_cases h1 : c.length < steps.length
    · have hne := readySteps_ne_nil hrank hnd hpend h1
      rw [runLoop_round h1 hne]
      have hfail := processReady_noFail hexec (readySteps steps c) steps c tr
      rw [hfail]
      simp only [Bool.false_eq_true, if_false]
      have hids := processReady_ids execs (readySteps steps c) steps c tr
      have hdeps := processReady_deps execs (readySteps steps c) steps c tr
      have hndr : (((readySteps steps c).map (fun t => t.step_id))).Nodup :=
        List.Nodup.sublist
          (List.Sublist.map (fun t => t.step_id) (readySteps_sublist steps c))
          hnd
      have hfresh : ∀ t ∈ readySteps steps c, t.step_id ∉ c :=
        fun t ht => (mem_readySteps.mp ht).2.1
      obtain ⟨δ, hδ, hδsub⟩ := processReady_c execs (readySteps steps c) steps c tr
      have hfuel2 :
          (processReady execs (readySteps steps c) steps c tr).steps.length -
          (processReady execs (readySteps steps c) steps c tr).completedSet.length
          < fuel := by
        rw [processReady_len execs (readySteps steps c) steps c tr]
        obtain ⟨hd, tl, hr⟩ := List.exists_cons_of_ne_nil hne
        have hhd : hd.step_id ∈
            (processReady execs (readySteps steps c) steps c tr).completedSet := by
          apply processReady_processed execs (readySteps steps c) steps c tr hfail
          rw [hr]; exact List.mem_cons_self hd tl
        have hhdf : hd.step_id ∉ c := hfresh hd (by rw [hr]; exact List.mem_cons_self hd tl)
        have hδne : δ ≠ [] := by
          intro hnil
          rw [hδ, hnil, List.append_nil] at hhd
          exact hhdf hhd
        have : (processReady execs (readySteps steps c) steps c tr).completedSet.length
            ≥ c.length + 1 := by
          rw [hδ, List.length_append]
          have := List.length_pos.mpr hδne
          omega
        omega
      have hrank2 : RankOk rank
          (processReady execs (readySteps steps c) steps c tr).steps :=
        RankOk_transport hids hdeps hrank
      have hnd2 : (((processReady execs (readySteps steps c) steps c tr).steps).map
          (fun t => t.step_id)).Nodup := by rw [hids]; exact hnd
      have hcnd2 := processReady_nodupC execs (readySteps steps c) steps c tr hcnd
      have hcsub2 : ∀ x ∈
          (processReady execs (readySteps steps c) steps c tr).completedSet,
          x ∈ ((processReady execs (readySteps steps c) steps c tr).steps).map
            (fun t => t.step_id) := by
        intro x hx
        rw [hids]
        rw [hδ] at hx
        rcases List.mem_append.mp hx with hx | hx
        · exact hcsub x hx
        · obtain ⟨s, hs, rfl⟩ := hδsub x hx
          exact List.mem_map_of_mem (fun t => t.step_id)
            ((mem_readySteps.mp hs).1)
      have hcomp2 := processReady_comp execs (readySteps steps c) steps c tr
        hcomp hfresh hndr
      have hpend2 := processReady_pend hexec (readySteps steps c) steps c tr hpend
      obtain ⟨out, hout, hof, hall, hoids⟩ :=
        ih _ _ (processReady execs (readySteps steps c) steps c tr).trace
          hfuel2 hrank2 hnd2 hcnd2 hcsub2 hcomp2 hpend2
      exact ⟨out, hout, hof, hall, by rw [hoids, hids]⟩
    · rw [runLoop_done h1]
      refine ⟨⟨steps, c, false, tr⟩, rfl, rfl, ?_, rfl⟩
      intro u hu
      have hsubp := List.subperm_of_subset hcnd hcsub
      have hperm := hsubp.perm_of_length_le (by rw [List.length_map]; omega)
      exact hcomp u hu (hperm.mem_iff.mpr
        (List.mem_map_of_mem (fun t => t.step_id) hu))

/-- A step dispatched at any round of the loop whose action has no
executor ends COMPLETED (result and error untouched) and in the completed
set. -/
theorem runLoop_noexec (execs : String → Option Executor) :
    ∀ (fuel : Nat) (steps : List WorkflowStep) (c : List String)
      (tr : List Event) (out : RoundOut) (s : WorkflowStep)
      (stAt : List WorkflowStep),
    ((steps.map (fun t => t.step_id)).Nodup) →
    runLoop execs fuel steps c tr = some out →
    Event.dispatched s stAt ∈ out.trace →
    Event.dispatched s stAt ∉ tr →
    execs s.action = none →
    { s with status := WorkflowStatus.completed } ∈ out.steps ∧
      s.step_id ∈ out.completedSet := by
  intro fuel
  induction fuel with
  | zero => intro steps c tr out s stAt _ h; exact absurd h (by rw [runLoop]; simp)
  | succ fuel ih =>
    intro steps c tr out s stAt hnd h hev hnew hnone
    by_cases h1 : c.length < steps.length
    · rcases hr : readySteps steps c with _ | ⟨hd, tl⟩
      · rw [runLoop_deadlock h1 hr] at h
        cases h
        exact absurd hev hnew
      · rw [runLoop_round h1 (by rw [hr]; exact List.cons_ne_nil hd tl)] at h
        have hndr : (((readySteps steps c).map (fun t => t.step_id))).Nodup :=
          List.Nodup.sublist
            (List.Sublist.map (fun t => t.step_id) (readySteps_sublist steps c))
            hnd
        have hsubr : ∀ t ∈ readySteps steps c, t ∈ steps :=
          fun t ht => (mem_readySteps.mp ht).1
        by_cases hfail :
            (processReady execs (readySteps steps c) steps c tr).failed
        · rw [if_pos hfail] at h
          cases h
          exact processReady_noexec execs (readySteps steps c) steps c tr s stAt
            hndr hsubr hev hnew hnone
        · rw [if_neg hfail] at h
          by_cases hev1 : Event.dispatched s stAt ∈
              (processReady execs (readySteps steps c) steps c tr).trace
          · obtain ⟨hentry, hid⟩ := processReady_noexec execs (readySteps steps c)
              steps c tr s stAt hndr hsubr hev1 hnew hnone
            have hnd2 : (((processReady execs (readySteps steps c) steps c tr).steps).map
                (fun t => t.step_id)).Nodup := by
              rw [processReady_ids]
              exact hnd
            obtain ⟨hmem, _⟩ := runLoop_frozen execs fuel _ _ _ _
              { s with status := WorkflowStatus.completed } hnd2 hentry
              (Or.inr (Or.inl rfl)) h
            obtain ⟨δ, hδ⟩ := runLoop_c_mono execs fuel _ _ _ _ h
            refine ⟨hmem, ?_⟩
            rw [hδ]
            exact List.mem_append.mpr (Or.inl hid)
          · have hnd2 : (((processReady execs (readySteps steps c) steps c tr).steps).map
                (fun t => t.step_id)).Nodup := by
              rw [processReady_ids]
              exact hnd
            exact ih _ _ _ _ s stAt hnd2 h hev hev1 hnone
    · rw [runLoop_done h1] at h
      cases h
      exact absurd hev hnew

/-! Unfolding helpers for `run`. -/

theorem run_not_found {eng : Engine} {wid : String}
    (h : wfGet eng.workflows wid = none) :
    run eng wid = some ⟨RunResult.err "Workflow not found", eng, [], []⟩ := by
  simp only [run, h]

theorem run_eq {eng : Engine} {wid : String} {wf : Workflow} {lout : RoundOut}
    (hwf : wfGet eng.workflows wid = some wf)
    (hloop : runLoop eng.executors (wf.steps.length + 1) wf.steps [] [] =
      some lout) :
    run eng wid = some
      ⟨RunResult.ok
        { workflow_id := wid,
          status := (if lout.failed then WorkflowStatus.failed
            else WorkflowStatus.completed).value,
          steps := lout.steps.map (fun s => (s.step_id, s.status.value)) },
        { eng with
          workflows := wfSet eng.workflows wid { wf with
            steps := lout.steps,
            status := if lout.failed then WorkflowStatus.failed
              else WorkflowStatus.completed } },
        lout.trace, lout.completedSet⟩ := by
  simp only [run, hwf, hloop]

theorem run_cases {eng : Engine} {wid : String} {wf : Workflow}
    {out : RunOutcome}
    (hwf : wfGet eng.workflows wid = some wf)
    (hrun : run eng wid = some out) :
    ∃ lout, runLoop eng.executors (wf.steps.length + 1) wf.steps [] [] =
        some lout ∧
      out.trace = lout.trace ∧ out.completedSet = lout.completedSet ∧
      out.result = RunResult.ok
        { workflow_id := wid,
          status := (if lout.failed then WorkflowStatus.failed
            else WorkflowStatus.completed).value,
          steps := lout.steps.map (fun s => (s.step_id, s.status.value)) } ∧
      out.engine = { eng with
        workflows := wfSet eng.workflows wid { wf with
          steps := lout.steps,
          status := if lout.failed then WorkflowStatus.failed
            else WorkflowStatus.completed } } := by
  cases hloop : runLoop eng.executors (wf.steps.length + 1) wf.steps [] [] with
  | none =>
    have := runLoop_isSome eng.executors (wf.steps.length + 1) wf.steps [] []
      (by simp)
    rw [hloop] at this
    exact absurd this (by simp)
  | some lout =>
    rw [run_eq hwf hloop] at hrun
    injection hrun with h
    rw [← h]
    exact ⟨lout, rfl, rfl, rfl, rfl, rfl⟩

/-! The claims. -/

/-- C10: `run` terminates for every engine state and every workflow id,
cyclic, dangling and failing configurations included (invoked executors
are total functions of the embedding, i.e. each executor call
terminates): the fuel `steps.length + 1` handed to the loop always
suffices, because each iteration either strictly enlarges the completed
set — bounded above by the step count — or stops the loop. -/
theorem claim_C10 (eng : Engine) (wid : String) :
    (run eng wid).isSome = true := by
  cases hwf : wfGet eng.workflows wid with
  | none =>
    rw [run_not_found hwf]
    rfl
  | some wf =>
    cases hloop : runLoop eng.executors (wf.steps.length + 1) wf.steps [] [] with
    | none =>
      have h := runLoop_isSome eng.executors (wf.steps.length + 1) wf.steps [] []
        (by simp)
      rw [hloop] at h
      exact absurd h (by simp)
    | some lout =>
      rw [run_eq hwf hloop]
      rfl

/-- C1: for every workflow whose dependency graph is acyclic with no
dangling dependency references (certified by a ranking), whose steps are
all PENDING as the registration API creates them, and under the
hypothesis that every invoked executor returns normally, `run` terminates
and returns status COMPLETED with every step's final status COMPLETED;
for a zero-step workflow the returned step-status mapping is empty. -/
theorem claim_C1 (eng : Engine) (wid : String) (wf : Workflow)
    (rank : String → Nat)
    (hwf : wfGet eng.workflows wid = some wf)
    (hnd : (wf.steps.map (fun t => t.step_id)).Nodup)
    (hpend : ∀ s ∈ wf.steps, s.status = WorkflowStatus.pending)
    (hrank : RankOk rank wf.steps)
    (hexec : ExecsOk eng.executors) :
    ∃ out s, run eng wid = some out ∧ out.result = RunResult.ok s ∧
      s.status = "completed" ∧ (∀ p ∈ s.steps, p.2 = "completed") ∧
      (wf.steps = [] → s.steps = []) := by
  obtain ⟨lout, hloop, hof, hall, hids⟩ :=
    runLoop_completes hexec rank (wf.steps.length + 1) wf.steps [] []
      (by omega) hrank hnd List.nodup_nil
      (fun x hx => absurd hx (List.not_mem_nil x))
      (fun u _ hu => absurd hu (List.not_mem_nil u.step_id))
      (fun u hu _ => hpend u hu)
  refine ⟨_, _, run_eq hwf hloop, rfl, ?_, ?_, ?_⟩
  · rw [hof]
    rfl
  · intro p hp
    obtain ⟨t, ht, rfl⟩ := List.mem_map.mp hp
    show t.status.value = "completed"
    rw [hall t ht]
    rfl
  · intro hnil
    have h2 : lout.steps.map (fun t => t.step_id) = [] := by
      rw [hids, hnil, List.map_nil]
    have h3 : lout.steps = [] := List.map_eq_nil_iff.mp h2
    simp [h3]

/-- Witness for C1 on the two-step chain `a ← b` with a succeeding
executor. -/
theorem claim_C1_witness :
    ∃ out s, run dagEng "w" = some out ∧ out.result = RunResult.ok s ∧
      s.status = "completed" ∧ (∀ p ∈ s.steps, p.2 = "completed") ∧
      ((sampleWf [sampleStep "a" "act" [], sampleStep "b" "act" ["a"]]).steps = []
        → s.steps = []) := by
  refine claim_C1 dagEng "w"
    (sampleWf [sampleStep "a" "act" [], sampleStep "b" "act" ["a"]])
    (fun x => if x = "b" then 1 else 0) rfl (by decide) (by decide)
    (by unfold RankOk; decide) ?_
  intro a f hf s
  by_cases ha : a = "act"
  · have h1 : some sampleOkExec = some f := by
      rw [← hf]
      simp [dagEng, ha]
    injection h1 with h1
    exact ⟨"r", by rw [← h1]; rfl⟩
  · exact absurd hf.symm (by simp [dagEng, ha])

/-- C6: `run` on an unknown workflow id reports the not-found error and
leaves the engine untouched; on a known id it always returns a summary
carrying the workflow id, a terminal status string, and a status entry
for every step, and the stored workflow status is terminal — never
RUNNING — when `run` returns. -/
theorem claim_C6 :
    (∀ (eng : Engine) (wid : String), wfGet eng.workflows wid = none →
      run eng wid = some ⟨RunResult.err "Workflow not found", eng, [], []⟩) ∧
    (∀ (eng : Engine) (wid : String) (wf : Workflow),
      wfGet eng.workflows wid = some wf →
      ∃ out s wf', run eng wid = some out ∧ out.result = RunResult.ok s ∧
        s.workflow_id = wid ∧
        (s.status = "completed" ∨ s.status = "failed") ∧
        s.steps.map Prod.fst = wf.steps.map (fun t => t.step_id) ∧
        wfGet out.engine.workflows wid = some wf' ∧
        wf'.status ≠ WorkflowStatus.running ∧
        (wf'.status = WorkflowStatus.completed ∨
          wf'.status = WorkflowStatus.failed)) := by
  constructor
  · intro eng wid h
    exact run_not_found h
  · intro eng wid wf hwf
    cases hloop : runLoop eng.executors (wf.steps.length + 1) wf.steps [] [] with
    | none =>
      have h := runLoop_isSome eng.executors (wf.steps.length + 1) wf.steps [] []
        (by simp)
      rw [hloop] at h
      exact absurd h (by simp)
    | some lout =>
      refine ⟨_, _, _, run_eq hwf hloop, rfl, rfl, ?_, ?_,
        wfGet_wfSet wid _ eng.workflows, ?_, ?_⟩
      · cases hf : lout.failed <;> simp [hf, WorkflowStatus.value]
      · have h1 : (lout.steps.map (fun s => (s.step_id, s.status.value))).map
            Prod.fst = lout.steps.map (fun t => t.step_id) := by
          rw [List.map_map]
          exact List.map_congr_left (fun t _ => rfl)
        rw [h1]
        exact runLoop_ids eng.executors _ _ _ _ _ hloop
      · cases hf : lout.failed <;> simp [hf]
      · cases hf : lout.failed <;> simp [hf]

/-- Witness for C6: the unknown id `missing` and the known id `w`. -/
theorem claim_C6_witness :
    run dagEng "missing" =
      some ⟨RunResult.err "Workflow not found", dagEng, [], []⟩ ∧
    (∃ out s wf', run dagEng "w" = some out ∧ out.result = RunResult.ok s ∧
      s.workflow_id = "w" ∧
      (s.status = "completed" ∨ s.status = "failed") ∧
      s.steps.map Prod.fst =
        ((sampleWf [sampleStep "a" "act" [], sampleStep "b" "act" ["a"]]).steps).map
          (fun t => t.step_id) ∧
      wfGet out.engine.workflows "w" = some wf' ∧
      wf'.status ≠ WorkflowStatus.running ∧
      (wf'.status = WorkflowStatus.completed ∨
        wf'.status = WorkflowStatus.failed)) :=
  ⟨claim_C6.1 dagEng "missing" rfl, claim_C6.2 dagEng "w" _ rfl⟩

/-- C4: an empty ready frontier while fewer steps than the total have
completed makes the loop stop at once with the failed flag set and the
step table untouched (so never-ready steps keep their PENDING status);
at the `run` level a workflow whose first frontier is already empty
returns status `failed` with every step reported at its unchanged
status; in particular the two-step cycle returns `failed` with both
steps `pending`. -/
theorem claim_C4 :
    (∀ (execs : String → Option Executor) (fuel : Nat)
      (steps : List WorkflowStep) (c : List String) (tr : List Event),
      readySteps steps c = [] → c.length < steps.length →
      runLoop execs (fuel + 1) steps c tr = some ⟨steps, c, true, tr⟩) ∧
    (∀ (eng : Engine) (wid : String) (wf : Workflow),
      wfGet eng.workflows wid = some wf →
      readySteps wf.steps [] = [] → wf.steps ≠ [] →
      ∃ out s, run eng wid = some out ∧ out.result = RunResult.ok s ∧
        s.status = "failed" ∧
        s.steps = wf.steps.map (fun t => (t.step_id, t.status.value))) ∧
    ((run cycleEng "w").map (fun o => o.result) =
      some (RunResult.ok ⟨"w", "failed", [("a", "pending"), ("b", "pending")]⟩)) := by
  refine ⟨?_, ?_, ?_⟩
  · intro execs fuel steps c tr h2 h1
    exact runLoop_deadlock h1 h2
  · intro eng wid wf hwf hready hne
    have h1 : ([] : List String).length < wf.steps.length := by
      simpa using List.length_pos.mpr hne
    have hloop : runLoop eng.executors (wf.steps.length + 1) wf.steps [] [] =
        some ⟨wf.steps, [], true, []⟩ := runLoop_deadlock h1 hready
    exact ⟨_, _, run_eq hwf hloop, rfl, rfl, rfl⟩
  · rfl

/-- Witness for C4 at the two-step cycle engine. -/
theorem claim_C4_witness :
    runLoop cycleEng.executors 1
      (sampleWf [sampleStep "a" "act" ["b"], sampleStep "b" "act" ["a"]]).steps
      [] [] = some ⟨(sampleWf [sampleStep "a" "act" ["b"],
        sampleStep "b" "act" ["a"]]).steps, [], true, []⟩ ∧
    (∃ out s, run cycleEng "w" = some out ∧ out.result = RunResult.ok s ∧
      s.status = "failed" ∧
      s.steps = ((sampleWf [sampleStep "a" "act" ["b"],
        sampleStep "b" "act" ["a"]]).steps).map
          (fun t => (t.step_id, t.status.value))) :=
  ⟨claim_C4.1 cycleEng.executors 0 _ [] [] (by decide) (by decide),
    claim_C4.2.1 cycleEng "w" _ rfl (by decide) (by decide)⟩

/-- C5 counterexample: `add_step` on an already-present step id does NOT
fail — it succeeds and silently replaces the stored step in place (the
code has no duplicate check at all), refuting the claimed `DuplicateStep`
failure. -/
theorem claim_C5_counterexample :
    (add_step dupEng "w" "a" "a2" "y" []).toOption.isSome = true ∧
    ((add_step dupEng "w" "a" "a2" "y" []).toOption.map
      (fun p => (wfGet p.2.workflows "w").map (fun wf => wf.steps))) =
      some (some [{ step_id := "a", name := "a2", action := "y" }]) :=
  ⟨rfl, rfl⟩

/-- C5 (amended): `add_step` fails with the not-found error when the
target workflow id does not exist; it performs no duplicate check — when
the step id already exists it succeeds and silently replaces that step in
place — and on every success it inserts the step with status PENDING and
no result or error (the returned step record carries exactly those
defaults). -/
theorem claim_C5 (eng : Engine) (wid sid nm act : String)
    (deps : List String) :
    (wfGet eng.workflows wid = none →
      add_step eng wid sid nm act deps =
        Except.error ("Workflow " ++ wid ++ " not found")) ∧
    (∀ wf, wfGet eng.workflows wid = some wf →
      add_step eng wid sid nm act deps = Except.ok
        ({ step_id := sid, name := nm, action := act, dependencies := deps },
          { eng with workflows := wfSet eng.workflows wid { wf with
            steps := stepsSet wf.steps
              { step_id := sid, name := nm, action := act,
                dependencies := deps } } })) := by
  constructor
  · intro h
    simp only [add_step, h]
  · intro wf h
    simp only [add_step, h]

/-- Witness for C5 (amended): a duplicate insertion that succeeds and an
unknown workflow id that fails. -/
theorem claim_C5_witness :
    add_step dupEng "w" "a" "a2" "y" [] = Except.ok
      ({ step_id := "a", name := "a2", action := "y" },
        { dupEng with
          workflows := wfSet dupEng.workflows "w" { sampleWf
              [sampleStep "a" "x" []] with
            steps := stepsSet (sampleWf [sampleStep "a" "x" []]).steps
              { step_id := "a", name := "a2", action := "y" } } }) ∧
    add_step dupEng "missing" "a" "a" "x" [] =
      Except.error ("Workflow " ++ "missing" ++ " not found") :=
  ⟨(claim_C5 dupEng "w" "a" "a2" "y" []).2 _ rfl,
    (claim_C5 dupEng "missing" "a" "a" "x" []).1 rfl⟩

/-- C2: during every execution of `run` on a workflow with unique step
ids, a step is never dispatched before all of its declared dependencies
have status COMPLETED (in the step-table snapshot at the moment of
dispatch), and the completed set returned by the run holds only ids of
steps whose final status is COMPLETED — failed steps are never added. -/
theorem claim_C2 (eng : Engine) (wid : String) (wf : Workflow)
    (out : RunOutcome)
    (hwf : wfGet eng.workflows wid = some wf)
    (hnd : (wf.steps.map (fun t => t.step_id)).Nodup)
    (hrun : run eng wid = some out) :
    (∀ s stAt, Event.dispatched s stAt ∈ out.trace →
      ∀ d ∈ s.dependencies, ∀ t ∈ stAt, t.step_id = d →
        t.status = WorkflowStatus.completed) ∧
    (∀ wf', wfGet out.engine.workflows wid = some wf' →
      ∀ x ∈ out.completedSet, ∀ t ∈ wf'.steps, t.step_id = x →
        t.status = WorkflowStatus.completed) := by
  obtain ⟨lout, hloop, htr, hcs, hres, hengine⟩ := run_cases hwf hrun
  obtain ⟨hevs, hcomps⟩ := runLoop_comp eng.executors _ _ _ _ _ hnd
    (fun u _ hu => absurd hu (List.not_mem_nil u.step_id)) hloop
  constructor
  · intro s stAt hev d hd t ht htd
    rw [htr] at hev
    rcases hevs _ hev with h | h
    · exact absurd h (List.not_mem_nil _)
    · exact h s stAt rfl d hd t ht htd
  · intro wf' hwf' x hx t ht htd
    rw [hengine, wfGet_wfSet] at hwf'
    injection hwf' with hwf'
    rw [← hwf'] at ht
    rw [hcs] at hx
    exact hcomps t ht (by rw [htd]; exact hx)

/-- Witness for C2 on the two-step chain engine. -/
theorem claim_C2_witness :
    ∃ out, run dagEng "w" = some out ∧
      ((∀ s stAt, Event.dispatched s stAt ∈ out.trace →
        ∀ d ∈ s.dependencies, ∀ t ∈ stAt, t.step_id = d →
          t.status = WorkflowStatus.completed) ∧
      (∀ wf', wfGet out.engine.workflows "w" = some wf' →
        ∀ x ∈ out.completedSet, ∀ t ∈ wf'.steps, t.step_id = x →
          t.status = WorkflowStatus.completed)) := by
  have h1 : (run dagEng "w").isSome = true := by decide
  cases hrun : run dagEng "w" with
  | none => rw [hrun] at h1; exact absurd h1 (by simp)
  | some out =>
    exact ⟨out, rfl, claim_C2 dagEng "w" _ out rfl (by decide) hrun⟩

/-- C3: when an invoked executor raises for some step, that `execFailed`
event is the final event of the whole run — every other event is a
dispatch, so no step (same frontier or later) is dispatched after the
failure —, the failing step's final status is FAILED with the error
description recorded in its error field, the workflow status is FAILED,
and `run` still returns its summary object (the failure never escapes). -/
theorem claim_C3 (eng : Engine) (wid : String) (out : RunOutcome)
    (sid m : String)
    (hrun : run eng wid = some out)
    (hev : Event.execFailed sid m ∈ out.trace) :
    (∃ δ, out.trace = δ ++ [Event.execFailed sid m] ∧
      ∀ ev ∈ δ, ev.isDispatchEvent = true) ∧
    (∃ s, out.result = RunResult.ok s ∧ s.status = "failed") ∧
    (∃ wf', wfGet out.engine.workflows wid = some wf' ∧
      wf'.status = WorkflowStatus.failed ∧
      ∀ t ∈ wf'.steps, t.step_id = sid →
        t.status = WorkflowStatus.failed ∧ t.error = some m) := by
  cases hwf : wfGet eng.workflows wid with
  | none =>
    rw [run_not_found hwf] at hrun
    injection hrun with h
    rw [← h] at hev
    exact absurd hev (List.not_mem_nil _)
  | some wf =>
    obtain ⟨lout, hloop, htr, hcs, hres, hengine⟩ := run_cases hwf hrun
    rcases runLoop_fail_trace eng.executors _ _ _ _ _
      (fun ev hev' => absurd hev' (List.not_mem_nil ev)) hloop with
      hleft | ⟨hfail, sid', m', δ, htrace, hδ, hst⟩
    · rw [htr] at hev
      have h2 := hleft _ hev
      simp [Event.isDispatchEvent] at h2
    · rw [htr, htrace] at hev
      rcases List.mem_append.mp hev with h | h
      · have h2 := hδ _ h
        simp [Event.isDispatchEvent] at h2
      · rw [List.mem_singleton] at h
        obtain ⟨rfl, rfl⟩ : sid = sid' ∧ m = m' := by
          injection h with a b; exact ⟨a, b⟩
        refine ⟨⟨δ, by rw [htr, htrace], hδ⟩, ⟨_, hres, ?_⟩, ?_⟩
        · rw [hfail]
          rfl
        · refine ⟨_, by rw [hengine]; exact wfGet_wfSet wid _ eng.workflows,
            ?_, ?_⟩
          · show (if lout.failed then WorkflowStatus.failed
              else WorkflowStatus.completed) = WorkflowStatus.failed
            rw [hfail]
            rfl
          · intro t ht htid
            exact hst t ht htid

/-- Witness for C3 on the fail-fast engine (`b` raises `boom`). -/
theorem claim_C3_witness :
    ∃ out, run failEng "w" = some out ∧
      Event.execFailed "b" "boom" ∈ out.trace ∧
      ((∃ δ, out.trace = δ ++ [Event.execFailed "b" "boom"] ∧
        ∀ ev ∈ δ, ev.isDispatchEvent = true) ∧
      (∃ s, out.result = RunResult.ok s ∧ s.status = "failed") ∧
      (∃ wf', wfGet out.engine.workflows "w" = some wf' ∧
        wf'.status = WorkflowStatus.failed ∧
        ∀ t ∈ wf'.steps, t.step_id = "b" →
          t.status = WorkflowStatus.failed ∧ t.error = some "boom")) := by
  have h1 : (run failEng "w").map
      (fun o => decide (Event.execFailed "b" "boom" ∈ o.trace)) = some true := by
    decide
  cases hrun : run failEng "w" with
  | none => rw [hrun] at h1; exact absurd h1 (by simp)
  | some out =>
    rw [hrun] at h1
    simp only [Option.map_some', Option.some.injEq] at h1
    have hev := of_decide_eq_true h1
    exact ⟨out, rfl, hev, claim_C3 failEng "w" out "b" "boom" hrun hev⟩

/-- C7: a dispatched step whose action has no registered executor is
auto-completed: it joins the completed set (so its dependents' dependency
on it counts as met in every later frontier computation), and its final
table entry is COMPLETED with result and error exactly as they were at
dispatch (no executor invoked, no error recorded); concretely, a
dependent of such a step still runs and the whole workflow completes. -/
theorem claim_C7 (eng : Engine) (wid : String) (wf : Workflow)
    (out : RunOutcome) (s : WorkflowStep) (stAt : List WorkflowStep)
    (hwf : wfGet eng.workflows wid = some wf)
    (hnd : (wf.steps.map (fun t => t.step_id)).Nodup)
    (hrun : run eng wid = some out)
    (hev : Event.dispatched s stAt ∈ out.trace)
    (hnone : eng.executors s.action = none) :
    s.step_id ∈ out.completedSet ∧
    (∀ wf', wfGet out.engine.workflows wid = some wf' →
      ∀ t ∈ wf'.steps, t.step_id = s.step_id →
        t.status = WorkflowStatus.completed ∧ t.result = s.result ∧
        t.error = s.error) ∧
    ((run noexecEng "w").map (fun o => o.result) =
      some (RunResult.ok ⟨"w", "completed",
        [("a", "completed"), ("b", "completed")]⟩)) := by
  obtain ⟨lout, hloop, htr, hcs, hres, hengine⟩ := run_cases hwf hrun
  rw [htr] at hev
  obtain ⟨hentry, hid⟩ := runLoop_noexec eng.executors _ _ _ _ _ s stAt hnd
    hloop hev (List.not_mem_nil _) hnone
  refine ⟨by rw [hcs]; exact hid, ?_, rfl⟩
  intro wf' hwf' t ht htid
  rw [hengine, wfGet_wfSet] at hwf'
  injection hwf' with hwf'
  rw [← hwf'] at ht
  have hndl : (lout.steps.map (fun t => t.step_id)).Nodup := by
    rw [runLoop_ids eng.executors _ _ _ _ _ hloop]
    exact hnd
  have heq : t = { s with status := WorkflowStatus.completed } :=
    List.inj_on_of_nodup_map hndl ht hentry (by rw [htid])
  rw [heq]
  exact ⟨rfl, rfl, rfl⟩

/-- Witness for C7 on the no-executor engine, at the dispatch of `a`. -/
theorem claim_C7_witness :
    ∃ out, run noexecEng "w" = some out ∧
      ((sampleStep "a" "nope" []).step_id ∈ out.completedSet ∧
      (∀ wf', wfGet out.engine.workflows "w" = some wf' →
        ∀ t ∈ wf'.steps, t.step_id = (sampleStep "a" "nope" []).step_id →
          t.status = WorkflowStatus.completed ∧
          t.result = (sampleStep "a" "nope" []).result ∧
          t.error = (sampleStep "a" "nope" []).error) ∧
      ((run noexecEng "w").map (fun o => o.result) =
        some (RunResult.ok ⟨"w", "completed",
          [("a", "completed"), ("b", "completed")]⟩))) := by
  have h1 : (run noexecEng "w").map
      (fun o => decide (Event.dispatched (sampleStep "a" "nope" [])
        [sampleStep "a" "nope" [], sampleStep "b" "nope" ["a"]] ∈ o.trace)) =
      some true := by
    decide
  cases hrun : run noexecEng "w" with
  | none => rw [hrun] at h1; exact absurd h1 (by simp)
  | some out =>
    rw [hrun] at h1
    simp only [Option.map_some', Option.some.injEq] at h1
    have hev := of_decide_eq_true h1
    have hc := claim_C7 noexecEng "w" _ out (sampleStep "a" "nope" [])
      [sampleStep "a" "nope" [], sampleStep "b" "nope" ["a"]] rfl (by decide)
      hrun hev rfl
    refine ⟨out, rfl, hc.1, hc.2.1, ?_⟩
    rw [← hrun]
    exact hc.2.2

/-- C8: a step that is already COMPLETED or FAILED when `run` starts is
never placed in any computed frontier (the readiness filter excludes
terminal statuses), is never dispatched, and its full record — status,
result and error included — is unchanged in the returned table, its id
being the only one with that key; consequently re-running a non-empty
workflow whose steps are all terminal finds an empty first frontier and
returns workflow status FAILED even though every step reads COMPLETED. -/
theorem claim_C8 :
    (∀ (steps : List WorkflowStep) (c : List String) (u : WorkflowStep),
      u ∈ steps →
      (u.status = WorkflowStatus.completed ∨ u.status = WorkflowStatus.failed) →
      u ∉ readySteps steps c) ∧
    (∀ (eng : Engine) (wid : String) (wf : Workflow) (out : RunOutcome)
      (u : WorkflowStep), wfGet eng.workflows wid = some wf →
      (wf.steps.map (fun t => t.step_id)).Nodup →
      run eng wid = some out → u ∈ wf.steps →
      (u.status = WorkflowStatus.completed ∨ u.status = WorkflowStatus.failed) →
      (∀ s stAt, Event.dispatched s stAt ∈ out.trace →
        s.step_id ≠ u.step_id) ∧
      (∀ wf', wfGet out.engine.workflows wid = some wf' →
        u ∈ wf'.steps ∧ ∀ t ∈ wf'.steps, t.step_id = u.step_id → t = u)) ∧
    ((run termEng "w").map (fun o => o.result) =
      some (RunResult.ok ⟨"w", "failed",
        [("a", "completed"), ("b", "completed")]⟩)) := by
  refine ⟨?_, ?_, rfl⟩
  · intro steps c u _ hstat hmem
    have hspec := mem_readySteps.mp hmem
    rcases hstat with h | h
    · exact hspec.2.2.2.1 h
    · exact hspec.2.2.2.2.1 h
  · intro eng wid wf out u hwf hnd hrun hu hstat
    obtain ⟨lout, hloop, htr, hcs, hres, hengine⟩ := run_cases hwf hrun
    obtain ⟨hmem, hevs⟩ := runLoop_frozen eng.executors _ _ _ _ _ u hnd hu
      (Or.inr hstat) hloop
    constructor
    · intro s stAt hev
      rw [htr] at hev
      rcases hevs _ hev with h | h
      · exact absurd h (List.not_mem_nil _)
      · exact h s stAt rfl
    · intro wf' hwf'
      rw [hengine, wfGet_wfSet] at hwf'
      injection hwf' with hwf'
      rw [← hwf']
      have hndl : (lout.steps.map (fun t => t.step_id)).Nodup := by
        rw [runLoop_ids eng.executors _ _ _ _ _ hloop]
        exact hnd
      exact ⟨hmem, fun t ht htid =>
        List.inj_on_of_nodup_map hndl ht hmem htid⟩

/-- Witness for C8 on the all-terminal engine. -/
theorem claim_C8_witness :
    ({ sampleStep "a" "x" [] with status := WorkflowStatus.completed } ∉
      readySteps (sampleWf
        [{ sampleStep "a" "x" [] with status := WorkflowStatus.completed },
         { sampleStep "b" "x" [] with status := WorkflowStatus.completed }]).steps
        []) ∧
    (∃ out, run termEng "w" = some out ∧
      (∀ s stAt, Event.dispatched s stAt ∈ out.trace →
        s.step_id ≠ ({ sampleStep "a" "x" [] with
          status := WorkflowStatus.completed } : WorkflowStep).step_id) ∧
      (∀ wf', wfGet out.engine.workflows "w" = some wf' →
        { sampleStep "a" "x" [] with status := WorkflowStatus.completed } ∈
            wf'.steps ∧
          ∀ t ∈ wf'.steps,
            t.step_id = ({ sampleStep "a" "x" [] with
              status := WorkflowStatus.completed } : WorkflowStep).step_id →
            t = { sampleStep "a" "x" [] with
              status := WorkflowStatus.completed })) := by
  have h := claim_C8
  have h1 : (run termEng "w").isSome = true := by decide
  cases hrun : run termEng "w" with
  | none => rw [hrun] at h1; exact absurd h1 (by simp)
  | some out =>
    refine ⟨h.1 _ [] _ (by decide) (Or.inl rfl), out, rfl, ?_⟩
    exact h.2.1 termEng "w" _ out _ rfl (by decide) hrun (by decide)
      (Or.inl rfl)

/-- C9: within each round `run` computes the frontier in the insertion
order of the step mapping (the frontier is a sublist of the step table)
and dispatches it strictly sequentially in that order; when a step fails
mid-frontier, the frontier splits as `r1 ++ s :: r2` with exactly
`r1 ++ [s]` dispatched in order, every earlier sibling ending COMPLETED
(its executor having run), the failing step FAILED, and every later
sibling's table entry left completely untouched (a PENDING sibling stays
PENDING) — a deterministic outcome, the embedding being a function of the
insertion order and the executors. -/
theorem claim_C9 :
    (∀ (steps : List WorkflowStep) (c : List String),
      List.Sublist (readySteps steps c) steps) ∧
    (∀ (execs : String → Option Executor) (ready steps : List WorkflowStep)
      (c : List String) (tr : List Event),
      ((ready.map (fun t => t.step_id)).Nodup) →
      (∀ t ∈ ready, t ∈ steps) →
      (processReady execs ready steps c tr).failed = true →
      ∃ r1 s r2 m δ, ready = r1 ++ s :: r2 ∧
        (processReady execs ready steps c tr).trace = tr ++ δ ∧
        dispatchIds δ = (r1 ++ [s]).map (fun t => t.step_id) ∧
        (∀ t ∈ r1, ∀ u ∈ (processReady execs ready steps c tr).steps,
          u.step_id = t.step_id → u.status = WorkflowStatus.completed) ∧
        (∀ u ∈ (processReady execs ready steps c tr).steps,
          u.step_id = s.step_id →
            u.status = WorkflowStatus.failed ∧ u.error = some m) ∧
        (∀ t ∈ r2, t ∈ (processReady execs ready steps c tr).steps)) :=
  ⟨readySteps_sublist, processReady_fail_decomp⟩

/-- Witness for C9 on the fail-fast frontier `[a, b, c]` where `b`
raises. -/
theorem claim_C9_witness :
    List.Sublist (readySteps (sampleWf [sampleStep "a" "ok" [],
      sampleStep "b" "bad" [], sampleStep "c" "ok" []]).steps [])
      (sampleWf [sampleStep "a" "ok" [], sampleStep "b" "bad" [],
        sampleStep "c" "ok" []]).steps ∧
    (∃ r1 s r2 m δ,
      [sampleStep "a" "ok" [], sampleStep "b" "bad" [], sampleStep "c" "ok" []]
        = r1 ++ s :: r2 ∧
      (processReady failEng.executors
        [sampleStep "a" "ok" [], sampleStep "b" "bad" [], sampleStep "c" "ok" []]
        [sampleStep "a" "ok" [], sampleStep "b" "bad" [], sampleStep "c" "ok" []]
        [] []).trace = [] ++ δ ∧
      dispatchIds δ = (r1 ++ [s]).map (fun t => t.step_id) ∧
      (∀ t ∈ r1, ∀ u ∈ (processReady failEng.executors
        [sampleStep "a" "ok" [], sampleStep "b" "bad" [], sampleStep "c" "ok" []]
        [sampleStep "a" "ok" [], sampleStep "b" "bad" [], sampleStep "c" "ok" []]
        [] []).steps,
        u.step_id = t.step_id → u.status = WorkflowStatus.completed) ∧
      (∀ u ∈ (processReady failEng.executors
        [sampleStep "a" "ok" [], sampleStep "b" "bad" [], sampleStep "c" "ok" []]
        [sampleStep "a" "ok" [], sampleStep "b" "bad" [], sampleStep "c" "ok" []]
        [] []).steps,
        u.step_id = s.step_id →
          u.status = WorkflowStatus.failed ∧ u.error = some m) ∧
      (∀ t ∈ r2, t ∈ (processReady failEng.executors
        [sampleStep "a" "ok" [], sampleStep "b" "bad" [], sampleStep "c" "ok" []]
        [sampleStep "a" "ok" [], sampleStep "b" "bad" [], sampleStep "c" "ok" []]
        [] []).steps)) :=
  ⟨claim_C9.1 _ [],
    claim_C9.2 failEng.executors _ _ [] [] (by decide) (by decide) (by decide)⟩

end WorkflowEngine
